import Mathlib

/-!
Shallow embedding of the slit-edge tracing code in `pypeit/new_trace.py`
(functions `recenter_moment`, `_recenter_trace_row`, `follow_trace_moment`,
`detect_slit_edges`, `identify_traces`, and the `EdgeTraceSet` methods
`check_traces`, `remove_traces`, `resort_trace_ids`), together with theorems
settling the specification claims about them.

Conventions used throughout:
  * 2D images are embedded as functions `ℤ → ℤ → ℚ` (row, column) together
    with explicit dimensions `ny nx : ℕ`; machine floats are embedded as `ℚ`.
  * `numpy` masked-array cells are embedded as `Option ℚ` (`none` = masked);
    `np.ma.divide` masks cells with a zero divisor, `np.ma.sqrt` masks
    negative cells, and `np.ma.sum` of a nonempty fully-masked axis is masked.
  * External transcendental routines (`np.sqrt`, `scipy.special.erf`) are
    irrational-valued and are embedded as explicit function parameters
    (`sqrtQ`, `erfQ`); every theorem below holds for all choices of these
    parameters, so nothing proved depends on their values.
  * Python exceptions are embedded with `Except String`.
-/

/-- `np.clip(v, lo, hi)`. -/
def npClip (v lo hi : ℚ) : ℚ := min hi (max lo v)

/-- `np.clip` for integers (used for `np.clip(x, 0, nx-1)` index clamping). -/
def npClipInt (v lo hi : ℤ) : ℤ := min hi (max lo v)

/-- `np.round` rounds half to even before the cast to `int`. -/
def npRound (q : ℚ) : ℤ :=
  let f : ℤ := ⌊q⌋
  let r : ℚ := q - f
  if r < 1/2 then f
  else if 1/2 < r then f + 1
  else if f % 2 = 0 then f else f + 1

/-- Bit positions of the `TraceBitMask` flags, in the declaration order of
`new_trace.py` (the `BitMask` base class assigns bits sequentially). -/
def NOEDGE : ℕ := 0
def MATHERROR : ℕ := 1
def MOMENTERROR : ℕ := 2
def LARGESHIFT : ℕ := 3
def DISCONTINUOUS : ℕ := 4
def DUPLICATE : ℕ := 5
def TOOSHORT : ℕ := 6
def HITMIN : ℕ := 7
def HITMAX : ℕ := 8

/-- `bitmask.turn_on(value, flag)`: set the flag's bit in the mask word. -/
def turn_on (w : ℕ) (bit : ℕ) : ℕ := w ||| 2 ^ bit

/-- `np.ma.divide a b`: masked where the divisor is zero. -/
def maDiv (a b : ℚ) : Option ℚ := if b = 0 then none else some (a / b)

/-- `np.ma.sum` along an axis: skips masked cells, but a nonempty
fully-masked axis yields a masked result (an empty axis sums to `0`). -/
def maSum (l : List (Option ℚ)) : Option ℚ :=
  if l = [] then some 0
  else if l.all (·.isNone) then none
  else some ((l.map (fun o => o.getD 0)).sum)

/-- The two weighting kernels accepted by `recenter_moment`; embedding the
(`case-sensitive`) string argument as an inductive type makes the
`weighting not in ...` `ValueError` unrepresentable. -/
inductive Weighting | uniform | gaussian
deriving DecidableEq, Repr

/-! ## `recenter_moment` (new_trace.py lines 1658-1873)

The embedding covers the 1D `xcen` case (`ndim == 1`), which is the form
used by every caller in the file (`_recenter_trace_row` passes a 1D center
vector); the 2D case only reshapes the same flattened computation.  `ivar`
and `mask` are embedded as `Option` (the `None` defaults become unit
inverse variance and an all-`False` mask); shape-mismatch `ValueError`s are
unrepresentable because images are total functions over the given
dimensions.  `ycen` keeps its three accepted forms. -/

inductive YCen
  | noneY
  | scalar (y : ℤ)
  | arr (l : List ℤ)
deriving DecidableEq, Repr

/-- The `_radius` of the integration window: half the width for uniform
weighting, three times the Gaussian sigma otherwise. -/
def momentRadius (weighting : Weighting) (w : ℚ) : ℚ :=
  match weighting with
  | .uniform => w / 2
  | .gaussian => w * 3

/-- `ix1 = np.floor(_xcen - _radius + 0.5)`. -/
def momentIx1 (weighting : Weighting) (w xc : ℚ) : ℤ :=
  ⌊xc - momentRadius weighting w + 1/2⌋

/-- `ix2 = np.floor(_xcen + _radius + 0.5)`. -/
def momentIx2 (weighting : Weighting) (w xc : ℚ) : ℤ :=
  ⌊xc + momentRadius weighting w + 1/2⌋

/-- `fullpix = int(np.amax(np.amin(ix2-ix1)-1,0))` (a clamp of the
coordinate-wise minimum window size at zero), `+3` for uniform weighting
"to match trace_fweight". -/
def momentFullpix (weighting : Weighting) (w : ℚ) (xcen : List ℚ) : ℕ :=
  let sizes := xcen.map (fun xc => momentIx2 weighting w xc - momentIx1 weighting w xc)
  let m : ℤ := max ((sizes.foldl min (sizes.headD 0)) - 1) 0
  (m.toNat) + (if weighting = .uniform then 3 else 0)

/-- `x = ix1[:,None]-1+np.arange(fullpix)[None,:]`: the (unclamped) column
of window cell `k` for the coordinate with guess center `xc`. -/
def momentX (weighting : Weighting) (w xc : ℚ) (k : ℕ) : ℤ :=
  momentIx1 weighting w xc - 1 + k

/-- `ih = np.clip(x,0,nx-1)`. -/
def momentIh (nx : ℕ) (weighting : Weighting) (w xc : ℚ) (k : ℕ) : ℤ :=
  npClipInt (momentX weighting w xc k) 0 (nx - 1)

/-- `good`: window cell on the image, unmasked, and with positive inverse
variance. -/
def momentGood (nx : ℕ) (ivar : ℤ → ℤ → ℚ) (mask : ℤ → ℤ → Bool)
    (weighting : Weighting) (w xc : ℚ) (yc : ℤ) (k : ℕ) : Bool :=
  let x := momentX weighting w xc k
  let ih := momentIh nx weighting w xc k
  decide (0 ≤ x) && decide (x < nx) && !(mask yc ih) && decide (0 < ivar yc ih)

/-- The weight of window cell `k`; masked (`good == 0`) cells weigh zero.
For uniform weighting this is the fraction of the pixel inside the window;
for Gaussian weighting it is the integral of the Gaussian over the pixel,
`(erf((coo+0.5)/√2/width) - erf((coo-0.5)/√2/width))/2`, where
`erfQ t` embeds `scipy.special.erf(t/√2)`. -/
def momentWt (nx : ℕ) (ivar : ℤ → ℤ → ℚ) (mask : ℤ → ℤ → Bool)
    (erfQ : ℚ → ℚ) (weighting : Weighting) (w xc : ℚ) (yc : ℤ) (k : ℕ) : ℚ :=
  if momentGood nx ivar mask weighting w xc yc k then
    let coo : ℚ := (momentX weighting w xc k : ℚ) - xc
    match weighting with
    | .uniform => npClip (momentRadius weighting w - |coo| + 1/2) 0 1
    | .gaussian => (erfQ ((coo + 1/2) / w) - erfQ ((coo - 1/2) / w)) / 2
  else 0

/-- `fwt = flux[_ycen[:,None],ih] * wt`. -/
def momentFwt (nx : ℕ) (flux ivar : ℤ → ℤ → ℚ) (mask : ℤ → ℤ → Bool)
    (erfQ : ℚ → ℚ) (weighting : Weighting) (w xc : ℚ) (yc : ℤ) (k : ℕ) : ℚ :=
  flux yc (momentIh nx weighting w xc k) * momentWt nx ivar mask erfQ weighting w xc yc k

/-- `sumw = np.sum(fwt, axis=1)`. -/
def momentSumw (nx : ℕ) (flux ivar : ℤ → ℤ → ℚ) (mask : ℤ → ℤ → Bool)
    (erfQ : ℚ → ℚ) (weighting : Weighting) (w : ℚ) (fullpix : ℕ) (xc : ℚ) (yc : ℤ) : ℚ :=
  ((List.range fullpix).map (fun k => momentFwt nx flux ivar mask erfQ weighting w xc yc k)).sum

/-- `np.sum(fwt*x, axis=1)` (the moment numerator; `x` is unclamped). -/
def momentSumwx (nx : ℕ) (flux ivar : ℤ → ℤ → ℚ) (mask : ℤ → ℤ → Bool)
    (erfQ : ℚ → ℚ) (weighting : Weighting) (w : ℚ) (fullpix : ℕ) (xc : ℚ) (yc : ℤ) : ℚ :=
  ((List.range fullpix).map (fun k =>
    momentFwt nx flux ivar mask erfQ weighting w xc yc k * (momentX weighting w xc k : ℚ))).sum

/-- `mu = np.ma.divide(np.sum(fwt*x, axis=1), sumw)`. -/
def momentMu (nx : ℕ) (flux ivar : ℤ → ℤ → ℚ) (mask : ℤ → ℤ → Bool)
    (erfQ : ℚ → ℚ) (weighting : Weighting) (w : ℚ) (fullpix : ℕ) (xc : ℚ) (yc : ℤ) : Option ℚ :=
  maDiv (momentSumwx nx flux ivar mask erfQ weighting w fullpix xc yc)
        (momentSumw nx flux ivar mask erfQ weighting w fullpix xc yc)

/-- One cell of `np.ma.divide(np.square(wt*(x-mu[:,None])), _ivar[...])`:
masked when `mu` is masked (the mask of `mu` broadcasts over the window) or
when the inverse variance is zero. -/
def momentErrCell (nx : ℕ) (flux ivar : ℤ → ℤ → ℚ) (mask : ℤ → ℤ → Bool)
    (erfQ : ℚ → ℚ) (weighting : Weighting) (w : ℚ) (fullpix : ℕ) (xc : ℚ) (yc : ℤ)
    (k : ℕ) : Option ℚ :=
  match momentMu nx flux ivar mask erfQ weighting w fullpix xc yc with
  | none => none
  | some m =>
    let iv := ivar yc (momentIh nx weighting w xc k)
    if iv = 0 then none
    else some ((momentWt nx ivar mask erfQ weighting w xc yc k *
                  ((momentX weighting w xc k : ℚ) - m)) ^ 2 / iv)

/-- `mue = np.ma.divide(np.ma.sqrt(np.ma.sum(..., axis=1)), np.absolute(sumw))`;
`sqrtQ` embeds `np.sqrt` on nonnegative rationals (`ma.sqrt` masks negative
cells before `sqrtQ` is ever consulted). -/
def momentMue (nx : ℕ) (flux ivar : ℤ → ℤ → ℚ) (mask : ℤ → ℤ → Bool)
    (sqrtQ erfQ : ℚ → ℚ) (weighting : Weighting) (w : ℚ) (fullpix : ℕ) (xc : ℚ) (yc : ℤ) :
    Option ℚ :=
  match maSum ((List.range fullpix).map
      (fun k => momentErrCell nx flux ivar mask erfQ weighting w fullpix xc yc k)) with
  | none => none
  | some s =>
    if s < 0 then none
    else maDiv (sqrtQ s) |momentSumw nx flux ivar mask erfQ weighting w fullpix xc yc|

/-- `bad = mu.mask | mue.mask` for one coordinate. -/
def momentBad (nx : ℕ) (flux ivar : ℤ → ℤ → ℚ) (mask : ℤ → ℤ → Bool)
    (sqrtQ erfQ : ℚ → ℚ) (weighting : Weighting) (w : ℚ) (fullpix : ℕ) (xc : ℚ) (yc : ℤ) :
    Bool :=
  (momentMu nx flux ivar mask erfQ weighting w fullpix xc yc).isNone ||
  (momentMue nx flux ivar mask sqrtQ erfQ weighting w fullpix xc yc).isNone

/-- The `_ycen` vector: `None` becomes `np.arange(npix)`, a scalar is
broadcast (`np.full_like(xcen, ycen)`), an array is used as given. -/
def momentYcen (n : ℕ) (ycen : YCen) : List ℤ :=
  match ycen with
  | .noneY => (List.range n).map (fun i => (i : ℤ))
  | .scalar y => List.replicate n y
  | .arr l => l

/-- `recenter_moment` (1D `xcen`).  Returns `(mu.data, mue.data, bad)`:
masked centers are replaced by the input guesses (`mu[bad] = _xcen[bad]`)
and masked errors by `fill_error`.  The `Except.error` cases embed the
function's `raise ValueError` statements; the `width` broadcast case that
no caller reaches (a multi-element width whose shape differs from `xcen`)
fails inside numpy broadcasting and is embedded as the dedicated error
string "broadcast". -/
def recenter_moment (ny nx : ℕ) (flux : ℤ → ℤ → ℚ)
    (ivarO : Option (ℤ → ℤ → ℚ)) (maskO : Option (ℤ → ℤ → Bool))
    (xcen : List ℚ) (ycen : YCen) (weighting : Weighting) (width : List ℚ)
    (fill_error : ℚ) (sqrtQ erfQ : ℚ → ℚ) :
    Except String (List ℚ × List ℚ × List Bool) :=
  let ivar := ivarO.getD (fun _ _ => 1)
  let mask := maskO.getD (fun _ _ => false)
  let n := xcen.length
  -- `if _width.size > 1 and _width.shape == _xcen.shape: raise ValueError(...)`
  if width.length > 1 ∧ width.length = n then
    .error "ValueError: Radius must a be either an integer, a floating point number, or an ndarray with the same shape and size as xcen."
  else if width.length > 1 then
    .error "broadcast"
  else
    let w := width.headD 3
    let ycenL : List ℤ := momentYcen n ycen
    -- `np.amin` / `np.amax` on an empty `_ycen` raise in numpy
    if ycenL = [] then .error "ValueError: zero-size array to reduction operation"
    else if ycenL.any (fun y => y < 0 ∨ (ny : ℤ) - 1 < y) then
      .error "ValueError: Input ycen values will run off the image"
    else if n ≠ ycenL.length then
      .error "ValueError: Number of elements in xcen and ycen must be equal"
    else
      let fullpix := momentFullpix weighting w xcen
      let bads := (List.range n).map (fun i =>
        momentBad nx flux ivar mask sqrtQ erfQ weighting w fullpix (xcen.getD i 0) (ycenL.getD i 0))
      let centers := (List.range n).map (fun i =>
        let xc := xcen.getD i 0
        let yc := ycenL.getD i 0
        if momentBad nx flux ivar mask sqrtQ erfQ weighting w fullpix xc yc then xc
        else (momentMu nx flux ivar mask erfQ weighting w fullpix xc yc).getD xc)
      let errs := (List.range n).map (fun i =>
        let xc := xcen.getD i 0
        let yc := ycenL.getD i 0
        if momentBad nx flux ivar mask sqrtQ erfQ weighting w fullpix xc yc then fill_error
        else (momentMue nx flux ivar mask sqrtQ erfQ weighting w fullpix xc yc).getD fill_error)
      .ok (centers, errs, bads)

/-! ## Claim C10: the width-array `ValueError` -/

/-- C10: `recenter_moment` raises its width `ValueError` exactly when the
(`atleast_1d`) width array has more than one element and the same shape as
`xcen` — the per-coordinate form its interface documentation advertises;
single-element widths never trigger it. -/
theorem recenter_moment_rejects_matching_width_array
    (ny nx : ℕ) (flux : ℤ → ℤ → ℚ) (ivarO : Option (ℤ → ℤ → ℚ))
    (maskO : Option (ℤ → ℤ → Bool)) (xcen : List ℚ) (ycen : YCen)
    (weighting : Weighting) (width : List ℚ) (fill_error : ℚ) (sqrtQ erfQ : ℚ → ℚ) :
    recenter_moment ny nx flux ivarO maskO xcen ycen weighting width fill_error sqrtQ erfQ
      = .error "ValueError: Radius must a be either an integer, a floating point number, or an ndarray with the same shape and size as xcen."
    ↔ (1 < width.length ∧ width.length = xcen.length) := by
  by_cases h : 1 < width.length ∧ width.length = xcen.length
  · simp only [recenter_moment]
    rw [if_pos h]
    simp only [true_iff, iff_true]
    · exact ⟨h.2 ▸ h.1, h.2⟩
  · simp only [recenter_moment]
    rw [if_neg h]
    constructor
    · intro hres
      exfalso
      revert hres
      split
      · intro hres
        exact absurd (Except.error.inj hres) (by decide)
      · split
        · intro hres
          exact absurd (Except.error.inj hres) (by decide)
        · split
          · intro hres
            exact absurd (Except.error.inj hres) (by decide)
          · split
            · intro hres
              exact absurd (Except.error.inj hres) (by decide)
            · intro hres
              exact Except.noConfusion hres
    · intro hres
      exact absurd hres h

/-! ## Claim C1: failure handling in `recenter_moment` -/

/-- Helper: `getD` through a `List.range`-indexed map. -/
theorem getD_range_map {β : Type} (f : ℕ → β) (n c : ℕ) (h : c < n) (d : β) :
    (((List.range n).map f).getD c d) = f c := by
  rw [List.getD_eq_getElem?_getD, List.getElem?_map, List.getElem?_range h]
  rfl

/-- Cells that are not `good` get zero weight. -/
theorem momentWt_of_not_good (nx : ℕ) (ivar : ℤ → ℤ → ℚ) (mask : ℤ → ℤ → Bool)
    (erfQ : ℚ → ℚ) (weighting : Weighting) (w xc : ℚ) (yc : ℤ) (k : ℕ)
    (h : momentGood nx ivar mask weighting w xc yc k = false) :
    momentWt nx ivar mask erfQ weighting w xc yc k = 0 := by
  simp [momentWt, h]

/-- A window whose cells are all bad has a zero weighted flux sum (`sumw`),
i.e. triggers the masked division. -/
theorem momentSumw_of_all_bad (nx : ℕ) (flux ivar : ℤ → ℤ → ℚ) (mask : ℤ → ℤ → Bool)
    (erfQ : ℚ → ℚ) (weighting : Weighting) (w : ℚ) (fullpix : ℕ) (xc : ℚ) (yc : ℤ)
    (h : ∀ k, k < fullpix → momentGood nx ivar mask weighting w xc yc k = false) :
    momentSumw nx flux ivar mask erfQ weighting w fullpix xc yc = 0 := by
  unfold momentSumw
  apply List.sum_eq_zero
  intro q hq
  simp only [List.mem_map, List.mem_range] at hq
  obtain ⟨k, hk, rfl⟩ := hq
  simp [momentFwt, momentWt_of_not_good nx ivar mask erfQ weighting w xc yc k (h k hk)]

/-- A masked window cell is not `good`. -/
theorem momentGood_of_masked (nx : ℕ) (ivar : ℤ → ℤ → ℚ) (mask : ℤ → ℤ → Bool)
    (weighting : Weighting) (w xc : ℚ) (yc : ℤ) (k : ℕ)
    (h : mask yc (momentIh nx weighting w xc k) = true) :
    momentGood nx ivar mask weighting w xc yc k = false := by
  simp [momentGood, h]

/-- A window cell off the image is not `good`. -/
theorem momentGood_of_outside (nx : ℕ) (ivar : ℤ → ℤ → ℚ) (mask : ℤ → ℤ → Bool)
    (weighting : Weighting) (w xc : ℚ) (yc : ℤ) (k : ℕ)
    (h : momentX weighting w xc k < 0 ∨ (nx : ℤ) ≤ momentX weighting w xc k) :
    momentGood nx ivar mask weighting w xc yc k = false := by
  rcases h with h | h
  · have h0 : ¬(0 ≤ momentX weighting w xc k) := by omega
    simp [momentGood, h0]
  · have h0 : ¬(momentX weighting w xc k < (nx : ℤ)) := by omega
    simp [momentGood, h0]

/-- A `good` cell has positive inverse variance at its clamped column. -/
theorem momentGood_ivar_pos (nx : ℕ) (ivar : ℤ → ℤ → ℚ) (mask : ℤ → ℤ → Bool)
    (weighting : Weighting) (w xc : ℚ) (yc : ℤ) (k : ℕ)
    (h : momentGood nx ivar mask weighting w xc yc k = true) :
    0 < ivar yc (momentIh nx weighting w xc k) := by
  simp only [momentGood, Bool.and_eq_true, decide_eq_true_eq] at h
  exact h.2

/-- If `sumw` is nonzero some window cell is `good`. -/
theorem momentGood_exists_of_sumw_ne (nx : ℕ) (flux ivar : ℤ → ℤ → ℚ)
    (mask : ℤ → ℤ → Bool) (erfQ : ℚ → ℚ) (weighting : Weighting) (w : ℚ)
    (fullpix : ℕ) (xc : ℚ) (yc : ℤ)
    (hs : momentSumw nx flux ivar mask erfQ weighting w fullpix xc yc ≠ 0) :
    ∃ k, k < fullpix ∧ momentGood nx ivar mask weighting w xc yc k = true := by
  by_contra hall
  push_neg at hall
  exact hs (momentSumw_of_all_bad nx flux ivar mask erfQ weighting w fullpix xc yc
    (fun k hk => by
      have := hall k hk
      exact Bool.not_eq_true _ ▸ (by simpa using this)))

/-- Any unmasked cell of the propagated-error masked sum is nonnegative:
cells with weight come from `good` pixels (positive inverse variance) and
weightless cells contribute exactly zero. -/
theorem momentErrCell_nonneg (nx : ℕ) (flux ivar : ℤ → ℤ → ℚ)
    (mask : ℤ → ℤ → Bool) (erfQ : ℚ → ℚ) (weighting : Weighting) (w : ℚ)
    (fullpix : ℕ) (xc : ℚ) (yc : ℤ) (k : ℕ) (v : ℚ)
    (hcell : momentErrCell nx flux ivar mask erfQ weighting w fullpix xc yc k = some v) :
    0 ≤ v := by
  unfold momentErrCell at hcell
  rcases hmu : momentMu nx flux ivar mask erfQ weighting w fullpix xc yc with _ | m
  · rw [hmu] at hcell
    exact Option.noConfusion hcell
  · rw [hmu] at hcell
    by_cases hiv : ivar yc (momentIh nx weighting w xc k) = 0
    · simp [hiv] at hcell
    · simp only [hiv, if_false, if_neg hiv] at hcell
      have hv := Option.some.inj hcell
      by_cases hg : momentGood nx ivar mask weighting w xc yc k = true
      · have hpos := momentGood_ivar_pos nx ivar mask weighting w xc yc k hg
        rw [← hv]
        exact div_nonneg (sq_nonneg _) (le_of_lt hpos)
      · have hwt := momentWt_of_not_good nx ivar mask erfQ weighting w xc yc k
          (Bool.not_eq_true _ ▸ (by simpa using hg))
        rw [← hv, hwt]
        simp

/-- When `sumw` is nonzero the propagated-error masked computation produces
an unmasked value: the first-moment `mu` is defined, every unmasked cell of
the error sum is nonnegative, and the final masked division is by the
nonzero `|sumw|`. -/
theorem momentMue_isSome_of_sumw_ne (nx : ℕ) (flux ivar : ℤ → ℤ → ℚ)
    (mask : ℤ → ℤ → Bool) (sqrtQ erfQ : ℚ → ℚ) (weighting : Weighting) (w : ℚ)
    (fullpix : ℕ) (xc : ℚ) (yc : ℤ)
    (hs : momentSumw nx flux ivar mask erfQ weighting w fullpix xc yc ≠ 0) :
    (momentMue nx flux ivar mask sqrtQ erfQ weighting w fullpix xc yc).isSome = true := by
  have hmu : momentMu nx flux ivar mask erfQ weighting w fullpix xc yc
      = some (momentSumwx nx flux ivar mask erfQ weighting w fullpix xc yc /
              momentSumw nx flux ivar mask erfQ weighting w fullpix xc yc) := by
    simp [momentMu, maDiv, hs]
  obtain ⟨k0, hk0, hg0⟩ := momentGood_exists_of_sumw_ne nx flux ivar mask erfQ weighting w
    fullpix xc yc hs
  have hiv0 : ivar yc (momentIh nx weighting w xc k0) ≠ 0 :=
    ne_of_gt (momentGood_ivar_pos nx ivar mask weighting w xc yc k0 hg0)
  have hcell0 : (momentErrCell nx flux ivar mask erfQ weighting w fullpix xc yc k0).isSome
      = true := by
    simp [momentErrCell, hmu, hiv0]
  have hmem0 : momentErrCell nx flux ivar mask erfQ weighting w fullpix xc yc k0 ∈
      (List.range fullpix).map
        (fun k => momentErrCell nx flux ivar mask erfQ weighting w fullpix xc yc k) :=
    List.mem_map.mpr ⟨k0, List.mem_range.mpr hk0, rfl⟩
  have hnotall : ¬((List.range fullpix).map
      (fun k => momentErrCell nx flux ivar mask erfQ weighting w fullpix xc yc k)).all
        (·.isNone) := by
    intro hall
    have := List.all_eq_true.mp hall _ hmem0
    simp only [Option.isNone_iff_eq_none] at this
    rw [this] at hcell0
    exact Bool.noConfusion hcell0
  have hsum : maSum ((List.range fullpix).map
      (fun k => momentErrCell nx flux ivar mask erfQ weighting w fullpix xc yc k))
      = some ((((List.range fullpix).map
          (fun k => momentErrCell nx flux ivar mask erfQ weighting w fullpix xc yc k)).map
            (fun o => o.getD 0)).sum) := by
    unfold maSum
    rw [if_neg (by intro hnil; rw [hnil] at hmem0; exact List.not_mem_nil _ hmem0),
        if_neg hnotall]
  have hnonneg : 0 ≤ (((List.range fullpix).map
      (fun k => momentErrCell nx flux ivar mask erfQ weighting w fullpix xc yc k)).map
        (fun o => o.getD 0)).sum := by
    apply List.sum_nonneg
    intro q hq
    simp only [List.mem_map, List.mem_range] at hq
    obtain ⟨o, ⟨k, _, rfl⟩, rfl⟩ := hq
    rcases ho : momentErrCell nx flux ivar mask erfQ weighting w fullpix xc yc k with _ | v
    · simp
    · simpa using momentErrCell_nonneg nx flux ivar mask erfQ weighting w fullpix xc yc k v ho
  unfold momentMue
  rw [hsum]
  simp [maDiv, not_lt.mpr hnonneg, abs_eq_zero, hs]
  rw [← List.map_map]
  exact hnonneg

/-- Equality on embedded Python results is decidable (used to evaluate the
embedding at concrete inputs). -/
instance {ε α : Type} [DecidableEq ε] [DecidableEq α] : DecidableEq (Except ε α)
  | .error e, .error f =>
    if h : e = f then isTrue (h ▸ rfl) else isFalse (by intro hh; cases hh; exact h rfl)
  | .error _, .ok _ => isFalse Except.noConfusion
  | .ok _, .error _ => isFalse Except.noConfusion
  | .ok a, .ok b =>
    if h : a = b then isTrue (h ▸ rfl) else isFalse (by intro hh; cases hh; exact h rfl)

/-- C1: in `recenter_moment`, a coordinate whose integration window is fully
masked or fully off the image has a zero weight sum, any coordinate with a
zero weight sum (the masked division by zero) is returned flagged `bad` with
the center left at the input guess and the error set to `fill_error`, and a
coordinate whose weight sum is nonzero is returned with `bad = False`. -/
theorem recenter_moment_failed_windows_flag_bad
    (ny nx : ℕ) (flux : ℤ → ℤ → ℚ) (ivarO : Option (ℤ → ℤ → ℚ))
    (maskO : Option (ℤ → ℤ → Bool)) (xcen : List ℚ) (ycen : YCen)
    (weighting : Weighting) (width : List ℚ) (fill_error : ℚ) (sqrtQ erfQ : ℚ → ℚ)
    (cens errs : List ℚ) (bads : List Bool) (c : ℕ)
    (hres : recenter_moment ny nx flux ivarO maskO xcen ycen weighting width fill_error sqrtQ erfQ
      = .ok (cens, errs, bads))
    (hc : c < xcen.length) :
    ((∀ k, k < momentFullpix weighting (width.headD 3) xcen →
        (maskO.getD fun _ _ => false) ((momentYcen xcen.length ycen).getD c 0)
          (momentIh nx weighting (width.headD 3) (xcen.getD c 0) k) = true) ∨
     (∀ k, k < momentFullpix weighting (width.headD 3) xcen →
        momentX weighting (width.headD 3) (xcen.getD c 0) k < 0 ∨
          (nx : ℤ) ≤ momentX weighting (width.headD 3) (xcen.getD c 0) k) →
      momentSumw nx flux (ivarO.getD fun _ _ => 1) (maskO.getD fun _ _ => false) erfQ weighting
        (width.headD 3) (momentFullpix weighting (width.headD 3) xcen) (xcen.getD c 0)
        ((momentYcen xcen.length ycen).getD c 0) = 0) ∧
    (momentSumw nx flux (ivarO.getD fun _ _ => 1) (maskO.getD fun _ _ => false) erfQ weighting
        (width.headD 3) (momentFullpix weighting (width.headD 3) xcen) (xcen.getD c 0)
        ((momentYcen xcen.length ycen).getD c 0) = 0 →
      bads.getD c false = true ∧ cens.getD c 0 = xcen.getD c 0 ∧
        errs.getD c 0 = fill_error) ∧
    (momentSumw nx flux (ivarO.getD fun _ _ => 1) (maskO.getD fun _ _ => false) erfQ weighting
        (width.headD 3) (momentFullpix weighting (width.headD 3) xcen) (xcen.getD c 0)
        ((momentYcen xcen.length ycen).getD c 0) ≠ 0 →
      bads.getD c false = false) := by
  simp only [recenter_moment] at hres
  split at hres
  · exact Except.noConfusion hres
  · split at hres
    · exact Except.noConfusion hres
    · split at hres
      · exact Except.noConfusion hres
      · split at hres
        · exact Except.noConfusion hres
        · split at hres
          · exact Except.noConfusion hres
          · simp only [Except.ok.injEq, Prod.mk.injEq] at hres
            obtain ⟨hcens, herrs, hbads⟩ := hres
            subst hcens herrs hbads
            refine ⟨?_, ?_, ?_⟩
            · intro h
              apply momentSumw_of_all_bad
              intro k hk
              rcases h with h | h
              · exact momentGood_of_masked _ _ _ _ _ _ _ _ (h k hk)
              · exact momentGood_of_outside _ _ _ _ _ _ _ _ (h k hk)
            · intro hzero
              have hbad : momentBad nx flux (ivarO.getD fun _ _ => 1)
                  (maskO.getD fun _ _ => false) sqrtQ erfQ weighting (width.headD 3)
                  (momentFullpix weighting (width.headD 3) xcen) (xcen.getD c 0)
                  ((momentYcen xcen.length ycen).getD c 0) = true := by
                simp only [momentBad, momentMu, maDiv, hzero]
                simp
              refine ⟨?_, ?_, ?_⟩
              · rw [getD_range_map _ _ _ hc]
                exact hbad
              · rw [getD_range_map _ _ _ hc]
                rw [hbad]
                simp
              · rw [getD_range_map _ _ _ hc]
                rw [hbad]
                simp
            · intro hnz
              rw [getD_range_map _ _ _ hc]
              have hmue := momentMue_isSome_of_sumw_ne nx flux
                (ivarO.getD fun _ _ => 1) (maskO.getD fun _ _ => false) sqrtQ erfQ weighting
                (width.headD 3) (momentFullpix weighting (width.headD 3) xcen)
                (xcen.getD c 0) ((momentYcen xcen.length ycen).getD c 0) hnz
              obtain ⟨v, hv⟩ := Option.isSome_iff_exists.mp hmue
              simp only [momentBad, momentMu, maDiv, if_neg hnz, hv]
              simp

unseal Rat.add Rat.mul Rat.sub Rat.inv in
/-- Witness for C1: a fully masked image yields `bad = True`, an unchanged
center, and the `fill_error` sentinel for its single coordinate. -/
theorem recenter_moment_failed_windows_flag_bad_witness :
    ([true] : List Bool).getD 0 false = true ∧
      ([2] : List ℚ).getD 0 0 = ([2] : List ℚ).getD 0 0 ∧
      ([-1] : List ℚ).getD 0 0 = (-1 : ℚ) :=
  (recenter_moment_failed_windows_flag_bad 1 3 (fun _ _ => 1) none (some fun _ _ => true)
    [2] (.scalar 0) .uniform [4] (-1) id id [2] [-1] [true] 0 (by decide) (by decide)).2.1
    (by decide)

/-! ## `_recenter_trace_row` (new_trace.py lines 2060-2152) -/

/-- `indx = matherr; if maxerror is not None: indx |= (xerr > maxerror)`:
the cells whose measurement is rejected and reset to the input. -/
def rowIndx (matherr : List Bool) (xerr : List ℚ) (maxerror : Option ℚ) (c : ℕ) : Bool :=
  matherr.getD c false ||
    (match maxerror with
     | some me => decide (xerr.getD c 0 > me)
     | none => false)

/-- The mask word toggled for one cell: MATHERROR for flagged moment
calculations, MOMENTERROR for large centroid errors, LARGESHIFT for shifts
beyond `maxshift` (in the toggling order of the source). -/
def rowMsk (cen xfit xerr : List ℚ) (matherr : List Bool)
    (maxshift maxerror : Option ℚ) (c : ℕ) : ℕ :=
  let m1 := if matherr.getD c false then turn_on 0 MATHERROR else 0
  let m2 := match maxerror with
    | some me => if xerr.getD c 0 > me then turn_on m1 MOMENTERROR else m1
    | none => m1
  match maxshift with
  | some ms => if |xfit.getD c 0 - cen.getD c 0| > ms then turn_on m2 LARGESHIFT else m2
  | none => m2

/-- The returned center for one cell:
`xfit = np.clip(xfit - cen, -maxshift, maxshift) + cen` then
`xfit[indx] = cen[indx]`. -/
def rowCen (cen xfit xerr : List ℚ) (matherr : List Bool)
    (maxshift maxerror : Option ℚ) (c : ℕ) : ℚ :=
  if rowIndx matherr xerr maxerror c then cen.getD c 0
  else
    match maxshift with
    | some ms => npClip (xfit.getD c 0 - cen.getD c 0) (-ms) ms + cen.getD c 0
    | none => xfit.getD c 0

/-- The returned error for one cell: `xerr[indx] = fill_error`. -/
def rowErr (xerr : List ℚ) (matherr : List Bool) (maxerror : Option ℚ)
    (fill_error : ℚ) (c : ℕ) : ℚ :=
  if rowIndx matherr xerr maxerror c then fill_error else xerr.getD c 0

/-- `_recenter_trace_row`: one row of the sequential follower.  Calls
`recenter_moment` (uniform weighting, scalar `ycen=row`), then — with a
`bitmask` — toggles MATHERROR / MOMENTERROR / LARGESHIFT bits, clamps the
shift at `maxshift`, and resets centers flagged by `recenter_moment` or by
the `maxerror` test to the input center with the `fill_error` sentinel.
With `bitmask = false` boolean flags are returned encoded as mask words
`0`/`1` (the source returns boolean arrays in that case). -/
def _recenter_trace_row (ny nx : ℕ) (row : ℤ) (cen : List ℚ) (flux : ℤ → ℤ → ℚ)
    (ivarO : Option (ℤ → ℤ → ℚ)) (maskO : Option (ℤ → ℤ → Bool)) (width : ℚ)
    (maxshift maxerror : Option ℚ) (bitmask : Bool) (fill_error : ℚ)
    (sqrtQ erfQ : ℚ → ℚ) : Except String (List ℚ × List ℚ × List ℕ) :=
  match recenter_moment ny nx flux ivarO maskO cen (.scalar row) .uniform [width]
      fill_error sqrtQ erfQ with
  | .error e => .error e
  | .ok (xfit, xerr, matherr) =>
    if maxshift = none ∧ maxerror = none ∧ bitmask = false then
      -- `return xfit, xerr, matherr`
      .ok (xfit, xerr, matherr.map (fun b => if b then 1 else 0))
    else
      .ok ((List.range cen.length).map
              (fun c => rowCen cen xfit xerr matherr maxshift maxerror c),
           (List.range cen.length).map
              (fun c => rowErr xerr matherr maxerror fill_error c),
           if bitmask then
             (List.range cen.length).map
                (fun c => rowMsk cen xfit xerr matherr maxshift maxerror c)
           else (List.range cen.length).map
                (fun c => if rowIndx matherr xerr maxerror c then 1 else 0))

/-- Setting a flag turns its bit on. -/
theorem turn_on_testBit_self (m b : ℕ) : (turn_on m b).testBit b = true := by
  simp [turn_on, Nat.testBit_or, Nat.testBit_two_pow_self]

/-- Setting a flag leaves the other bits unchanged. -/
theorem turn_on_testBit_ne (m b b' : ℕ) (h : b ≠ b') :
    (turn_on m b).testBit b' = m.testBit b' := by
  have h2 : (2 ^ b).testBit b' = false := by
    rw [Nat.testBit_two_pow]
    simp [h]
  simp [turn_on, Nat.testBit_or, h2]

/-- C4: in `_recenter_trace_row` (with a bitmask and a maximum shift), a
shift beyond the tolerance sets the LARGESHIFT bit and — unless the row is
rejected for MATHERROR/MOMENTERROR — the center keeps the clamped value
`cen + clip(xfit-cen, -maxshift, maxshift)`; rows flagged by the moment
calculation (MATHERROR) or with centroid error above `maxerror`
(MOMENTERROR) fall back to the input center and receive the `fill_error`
sentinel. -/
theorem _recenter_trace_row_clamp_and_reset
    (ny nx : ℕ) (row : ℤ) (cen : List ℚ) (flux : ℤ → ℤ → ℚ)
    (ivarO : Option (ℤ → ℤ → ℚ)) (maskO : Option (ℤ → ℤ → Bool)) (width : ℚ)
    (ms : ℚ) (maxerror : Option ℚ) (fill_error : ℚ) (sqrtQ erfQ : ℚ → ℚ)
    (rc re : List ℚ) (rm : List ℕ) (xfit xerr : List ℚ) (matherr : List Bool) (c : ℕ)
    (hres : _recenter_trace_row ny nx row cen flux ivarO maskO width (some ms) maxerror
      true fill_error sqrtQ erfQ = .ok (rc, re, rm))
    (hmom : recenter_moment ny nx flux ivarO maskO cen (.scalar row) .uniform [width]
      fill_error sqrtQ erfQ = .ok (xfit, xerr, matherr))
    (hc : c < cen.length) :
    ((|xfit.getD c 0 - cen.getD c 0| > ms → (rm.getD c 0).testBit LARGESHIFT = true) ∧
     (rowIndx matherr xerr maxerror c = false →
        rc.getD c 0 = npClip (xfit.getD c 0 - cen.getD c 0) (-ms) ms + cen.getD c 0) ∧
     (matherr.getD c false = true → (rm.getD c 0).testBit MATHERROR = true) ∧
     (∀ me, maxerror = some me → xerr.getD c 0 > me →
        (rm.getD c 0).testBit MOMENTERROR = true) ∧
     (rowIndx matherr xerr maxerror c = true →
        rc.getD c 0 = cen.getD c 0 ∧ re.getD c 0 = fill_error)) := by
  unfold _recenter_trace_row at hres
  rw [hmom] at hres
  have hcond : ¬((some ms : Option ℚ) = none ∧ maxerror = none ∧ (true : Bool) = false) := by
    simp
  simp only [if_neg hcond, if_true, Except.ok.injEq, Prod.mk.injEq] at hres
  obtain ⟨hrc, hre, hrm⟩ := hres
  subst hrc hre hrm
  refine ⟨?_, ?_, ?_, ?_, ?_⟩
  · intro hshift
    rw [getD_range_map _ _ _ hc]
    unfold rowMsk
    simp only [if_pos hshift]
    exact turn_on_testBit_self _ _
  · intro hgood
    rw [getD_range_map _ _ _ hc]
    unfold rowCen
    rw [hgood]
    simp
  · intro hm
    rw [getD_range_map _ _ _ hc]
    unfold rowMsk
    by_cases hs : |xfit.getD c 0 - cen.getD c 0| > ms
    · simp only [if_pos hs]
      rw [turn_on_testBit_ne _ _ _ (by decide)]
      rcases maxerror with _ | me
      · simp only [hm, if_true]
        exact turn_on_testBit_self _ _
      · by_cases hme : xerr.getD c 0 > me
        · simp only [hm, hme, if_true]
          rw [turn_on_testBit_ne _ _ _ (by decide)]
          exact turn_on_testBit_self _ _
        · simp only [hm, hme, if_true, if_false]
          exact turn_on_testBit_self _ _
    · simp only [if_neg hs]
      rcases maxerror with _ | me
      · simp only [hm, if_true]
        exact turn_on_testBit_self _ _
      · by_cases hme : xerr.getD c 0 > me
        · simp only [hm, hme, if_true]
          rw [turn_on_testBit_ne _ _ _ (by decide)]
          exact turn_on_testBit_self _ _
        · simp only [hm, hme, if_true, if_false]
          exact turn_on_testBit_self _ _
  · intro me hmeq hgt
    subst hmeq
    rw [getD_range_map _ _ _ hc]
    unfold rowMsk
    by_cases hs : |xfit.getD c 0 - cen.getD c 0| > ms
    · simp only [if_pos hs, hgt, if_true]
      rw [turn_on_testBit_ne _ _ _ (by decide)]
      exact turn_on_testBit_self _ _
    · simp only [if_neg hs, hgt, if_true]
      exact turn_on_testBit_self _ _
  · intro hbad
    constructor
    · rw [getD_range_map _ _ _ hc]
      unfold rowCen
      rw [hbad]
      simp
    · rw [getD_range_map _ _ _ hc]
      unfold rowErr
      rw [hbad]
      simp

unseal Rat.add Rat.mul Rat.sub Rat.inv in
/-- Witness for C4: a bright pixel pulls the centroid from 1 to 9/4; with
`maxshift = 1/2` the returned mask word is 8 (LARGESHIFT set). -/
theorem _recenter_trace_row_clamp_and_reset_witness :
    (([8] : List ℕ).getD 0 0).testBit LARGESHIFT = true :=
  (_recenter_trace_row_clamp_and_reset 1 5 0 [1] (fun _ j => if j == 3 then 10 else 1)
    none none 4 (1/2) none (-1) id id [3/2] [437/512] [8] [9/4] [437/512] [false] 0
    (by decide) (by decide) (by decide)).1 (by decide)

/-! ## `follow_trace_moment` (new_trace.py lines 1915-2057) -/

/-- The sequential chain of `_recenter_trace_row` calls: each row in `rows`
is recentered from the previous row's result (`maxshift_follow`
tolerance), accumulating `(centers, errors, mask)` triples in row order. -/
def followSeq (ny nx : ℕ) (flux : ℤ → ℤ → ℚ) (ivarO : Option (ℤ → ℤ → ℚ))
    (maskO : Option (ℤ → ℤ → Bool)) (width maxshift_follow : ℚ) (maxerror : Option ℚ)
    (bitmask : Bool) (sqrtQ erfQ : ℚ → ℚ) :
    List ℤ → List ℚ → Except String (List (List ℚ × List ℚ × List ℕ))
  | [], _ => .ok []
  | r :: rest, prev =>
    match _recenter_trace_row ny nx r prev flux ivarO maskO width (some maxshift_follow)
        maxerror bitmask (-1) sqrtQ erfQ with
    | .error e => .error e
    | .ok (c, e2, m) =>
      match followSeq ny nx flux ivarO maskO width maxshift_follow maxerror bitmask
          sqrtQ erfQ rest c with
      | .error e => .error e
      | .ok tail => .ok ((c, e2, m) :: tail)

/-- `s = np.amin(p[indx])` for `indx = bad & (p > start_row)`: the first bad
row above the seed (rows are scanned in increasing order, so the head of
the filtered list is the minimum). -/
def contS (nr start_row : ℕ) (col : List ℕ) : Option ℕ :=
  ((List.range nr).filter (fun r => decide (col.getD r 0 > 0) && decide (r > start_row))).head?

/-- `e = np.amax(p[indx])-1` for `indx = bad & (p < start_row)`: one less
than the last bad row below the seed (as a signed value: `e` is `-1` when
the only bad row below the seed is row 0). -/
def contE (nr start_row : ℕ) (col : List ℕ) : Option ℤ :=
  (((List.range nr).filter
      (fun r => decide (col.getD r 0 > 0) && decide (r < start_row))).getLast?).map
    (fun mx => (mx : ℤ) - 1)

/-- The DISCONTINUOUS truncation for one cell of one trace column:
`xm[s:,i]` is flagged above, `xm[:e,i]` below (python slice semantics: a
negative `e` counts from the end). With `bitmask = None` the source
assigns `True` (here the 0/1 encoding). -/
def contCellVal (nr start_row : ℕ) (bitmask : Bool) (col : List ℕ) (r : ℕ) : ℕ :=
  let flag := fun v => if bitmask then turn_on v DISCONTINUOUS else 1
  let v0 := col.getD r 0
  let v1 := match contS nr start_row col with
    | some s => if r ≥ s then flag v0 else v0
    | none => v0
  match contE nr start_row col with
  | some e =>
    let stop : ℤ := if e < 0 then (nr : ℤ) + e else e
    if (r : ℤ) < stop then flag v1 else v1
  | none => v1

/-- The `continuous=True` post-processing of the follower's mask matrix
(row-major, one inner entry per trace). -/
def keepContinuous (start_row : ℕ) (bitmask : Bool) (xm : List (List ℕ)) :
    List (List ℕ) :=
  let nr := xm.length
  let nt := (xm.headD []).length
  (List.range nr).map (fun r =>
    (List.range nt).map (fun i =>
      contCellVal nr start_row bitmask (xm.map (fun rowv => rowv.getD i 0)) r))

/-- `follow_trace_moment`: recenter the seed row with the `maxshift_start`
tolerance, then follow each trace to higher and lower rows sequentially
(each row recentered from its neighbor's result with `maxshift_follow`);
with `continuous=True` the mask is post-processed by `keepContinuous`.
Returns the `(centers, errors, mask)` matrices in row-major order. -/
def follow_trace_moment (ny nx : ℕ) (flux : ℤ → ℤ → ℚ) (start_row : ℕ)
    (start_cen : List ℚ) (ivarO : Option (ℤ → ℤ → ℚ)) (maskO : Option (ℤ → ℤ → Bool))
    (width maxshift_start maxshift_follow : ℚ) (maxerror : Option ℚ)
    (continuous : Bool) (bitmask : Bool) (sqrtQ erfQ : ℚ → ℚ) :
    Except String (List (List ℚ) × List (List ℚ) × List (List ℕ)) :=
  if start_cen.any (fun x => decide (x > (nx : ℚ) - 1) || decide (x < 0)) ||
      decide (ny ≤ start_row) then
    .error "ValueError: Starting coordinates incompatible with input image!"
  else
    match _recenter_trace_row ny nx start_row start_cen flux ivarO maskO width
        (some maxshift_start) maxerror bitmask (-1) sqrtQ erfQ with
    | .error e => .error e
    | .ok (c0, e0, m0) =>
      -- `for i in range(start_row+1,nr)` upward from the seed result
      match followSeq ny nx flux ivarO maskO width maxshift_follow maxerror bitmask
          sqrtQ erfQ ((List.range (ny - 1 - start_row)).map
            (fun k => (start_row : ℤ) + 1 + k)) c0 with
      | .error e => .error e
      | .ok up =>
        -- `for i in range(start_row-1,-1,-1)` downward from the seed result
        match followSeq ny nx flux ivarO maskO width maxshift_follow maxerror bitmask
            sqrtQ erfQ ((List.range start_row).map
              (fun k => (start_row : ℤ) - 1 - k)) c0 with
        | .error e => .error e
        | .ok down =>
          let all := down.reverse ++ (c0, e0, m0) :: up
          let xc := all.map (fun t => t.1)
          let xe := all.map (fun t => t.2.1)
          let xm := all.map (fun t => t.2.2)
          if continuous then .ok (xc, xe, keepContinuous start_row bitmask xm)
          else .ok (xc, xe, xm)

unseal Rat.add Rat.mul Rat.sub Rat.inv in
set_option maxRecDepth 8000 in
/-- C5 (code bug): `follow_trace_moment` with `continuous=True` on a 4-row
image whose row 2 is fully masked, seeded at row 3.  The first bad row
below the seed is row 2 (MATHERROR, word 2); rows strictly beyond it are
rows 1 and 0, but the truncation `e = np.amax(p[indx])-1; xm[:e,i]` flags
only row 0 (DISCONTINUOUS, word 16) and leaves row 1 unflagged (word 0),
so the surviving unflagged rows `{1, 3}` are *not* the contiguous run of
good rows through the seed that the specification requires. -/
theorem follow_trace_moment_discontinuous_off_by_one :
    follow_trace_moment 4 5 (fun _ _ => 1) 3 [2] none (some (fun r _ => r == 2)) 4 1 1
      none true true id id
      = .ok ([[2], [2], [2], [2]], [[1], [1], [-1], [1]], [[16], [0], [2], [0]]) := by
  decide

/-! ## `detect_slit_edges` (new_trace.py lines 1222-1313)

`np.sqrt` is the parameter `sqrtQ`; `scipy.ndimage.median_filter`
(size `(7,3)`, reflect boundary), `scipy.ndimage.sobel` (`mode='nearest'`,
the default and only mode used in the file), and the
`maximum_filter1d`/`minimum_filter1d` local-extremum passes (size 10,
whose reflect boundary coincides with index clamping for extrema) are
implemented directly. -/

/-- The scipy `reflect` boundary index map (single reflection). -/
def reflectIdx (n : ℕ) (i : ℤ) : ℤ :=
  if i < 0 then -1 - i else if (n : ℤ) ≤ i then 2 * n - 1 - i else i

/-- The `nearest` boundary index map (clamp). -/
def nearestIdx (n : ℕ) (i : ℤ) : ℤ := npClipInt i 0 ((n : ℤ) - 1)

/-- The median of a list of rationals (odd length: middle of the sorted
values, as `scipy.ndimage.median_filter` computes it). -/
def listMedian (l : List ℚ) : ℚ :=
  (List.insertionSort (fun a b => a ≤ b) l).getD (l.length / 2) 0

/-- One `ndimage.median_filter(..., size=(7,3))` pass. -/
def medianFilter73 (ny nx : ℕ) (f : ℤ → ℤ → ℚ) : ℤ → ℤ → ℚ := fun i j =>
  listMedian (((List.range 7).map (fun a => (a : ℤ) - 3)).flatMap (fun di =>
    ((List.range 3).map (fun b => (b : ℤ) - 1)).map (fun dj =>
      f (reflectIdx ny (i + di)) (reflectIdx nx (j + dj)))))

/-- `sqmstrace` after the median iterations and the floor of spuriously low
pixels to plus/minus one. -/
def sqmstrace (ny nx : ℕ) (flux : ℤ → ℤ → ℚ) (median_iterations : ℕ)
    (sqrtQ : ℚ → ℚ) : ℤ → ℤ → ℚ := fun i j =>
  let med := (medianFilter73 ny nx)^[median_iterations] (fun a b => sqrtQ |flux a b|)
  let v := med i j
  if v < 1 ∧ 0 ≤ v then 1
  else if -1 < v ∧ v ≤ 0 then -1
  else v

/-- `ndimage.sobel(sqmstrace, axis=1, mode='nearest')`: the `[-1,0,1]`
derivative along columns combined with `[1,2,1]` smoothing along rows. -/
def sobelAx1 (ny nx : ℕ) (f : ℤ → ℤ → ℚ) : ℤ → ℤ → ℚ := fun i j =>
  let d := fun (a b : ℤ) => f a (nearestIdx nx (b + 1)) - f a (nearestIdx nx (b - 1))
  d (nearestIdx ny (i - 1)) j + 2 * d i j + d (nearestIdx ny (i + 1)) j

/-- `filt = sobel(...) * (1.0 - _mask)`. -/
def sobelFilt (ny nx : ℕ) (flux : ℤ → ℤ → ℚ) (mask : ℤ → ℤ → Bool)
    (median_iterations : ℕ) (sqrtQ : ℚ → ℚ) : ℤ → ℤ → ℚ := fun i j =>
  (if mask i j then 0 else 1) * sobelAx1 ny nx (sqmstrace ny nx flux median_iterations sqrtQ) i j

/-- `sobel_sig = np.sign(filt)*np.power(filt,2)/np.maximum(sqmstrace, min_sqm)`
(before the final bad-pixel-mask multiplication). -/
def sobelSig (ny nx : ℕ) (flux : ℤ → ℤ → ℚ) (mask : ℤ → ℤ → Bool)
    (median_iterations : ℕ) (min_sqm : ℚ) (sqrtQ : ℚ → ℚ) : ℤ → ℤ → ℚ := fun i j =>
  let ft := sobelFilt ny nx flux mask median_iterations sqrtQ i j
  (if 0 < ft then 1 else if ft < 0 then -1 else 0) * ft ^ 2 /
    max (sqmstrace ny nx flux median_iterations sqrtQ i j) min_sqm

/-- `tedges`: `-1` where the significance exceeds `sigdetect` (left edge),
`1` where it is below `-sigdetect` (right edge); the source's second
`np.where` assignment overwrites the first, so the `+1` test has
priority. -/
def tedges (ny nx : ℕ) (flux : ℤ → ℤ → ℚ) (mask : ℤ → ℤ → Bool)
    (median_iterations : ℕ) (min_sqm sigdetect : ℚ) (sqrtQ : ℚ → ℚ) : ℤ → ℤ → ℤ := fun i j =>
  let s := sobelSig ny nx flux mask median_iterations min_sqm sqrtQ i j
  if s < -sigdetect then 1 else if sigdetect < s then -1 else 0

/-- `maximum_filter1d(sobel_sig, 10, axis=1)` at one pixel (window
`[j-5, j+4]`; the reflect boundary only duplicates in-window values, so
clamped indices give the same extremum). -/
def maxFilt10 (nx : ℕ) (g : ℤ → ℤ → ℚ) (i j : ℤ) : ℚ :=
  ((List.range 10).map (fun k => g i (npClipInt (j - 5 + k) 0 ((nx : ℤ) - 1)))).foldl
    max (g i (npClipInt (j - 5) 0 ((nx : ℤ) - 1)))

/-- `minimum_filter1d(sobel_sig, 10, axis=1)` at one pixel. -/
def minFilt10 (nx : ℕ) (g : ℤ → ℤ → ℚ) (i j : ℤ) : ℚ :=
  ((List.range 10).map (fun k => g i (npClipInt (j - 5 + k) 0 ((nx : ℤ) - 1)))).foldl
    min (g i (npClipInt (j - 5) 0 ((nx : ℤ) - 1)))

/-- `edge_img` before the final bad-pixel-mask multiplication: `-1`/`1`
only at the locally strongest (`wcl`/`wcr`) threshold crossings. -/
def edgeImgPre (ny nx : ℕ) (flux : ℤ → ℤ → ℚ) (mask : ℤ → ℤ → Bool)
    (median_iterations : ℕ) (min_sqm sigdetect : ℚ) (sqrtQ : ℚ → ℚ) : ℤ → ℤ → ℤ := fun i j =>
  let s := sobelSig ny nx flux mask median_iterations min_sqm sqrtQ
  let t := tedges ny nx flux mask median_iterations min_sqm sigdetect sqrtQ i j
  if maxFilt10 nx s i j = s i j ∧ t = -1 then -1
  else if minFilt10 nx s i j = s i j ∧ t = 1 then 1
  else 0

/-- `detect_slit_edges`: returns the significance image and the edge image
(both multiplied by `(1 - mask)` when a bad-pixel mask is given). -/
def detect_slit_edges (ny nx : ℕ) (flux : ℤ → ℤ → ℚ) (maskO : Option (ℤ → ℤ → Bool))
    (median_iterations : ℕ) (min_sqm sigdetect : ℚ) (sqrtQ : ℚ → ℚ) :
    (ℤ → ℤ → ℚ) × (ℤ → ℤ → ℤ) :=
  let mask := maskO.getD (fun _ _ => false)
  let s := sobelSig ny nx flux mask median_iterations min_sqm sqrtQ
  let e := edgeImgPre ny nx flux mask median_iterations min_sqm sigdetect sqrtQ
  match maskO with
  | none => (s, e)
  | some m => (fun i j => if m i j then 0 else s i j, fun i j => if m i j then 0 else e i j)

/-- The pre-mask edge image only takes values `-1`, `0`, `1`. -/
theorem edgeImgPre_mem (ny nx : ℕ) (flux : ℤ → ℤ → ℚ) (mask : ℤ → ℤ → Bool)
    (median_iterations : ℕ) (min_sqm sigdetect : ℚ) (sqrtQ : ℚ → ℚ) (i j : ℤ) :
    edgeImgPre ny nx flux mask median_iterations min_sqm sigdetect sqrtQ i j = -1 ∨
    edgeImgPre ny nx flux mask median_iterations min_sqm sigdetect sqrtQ i j = 0 ∨
    edgeImgPre ny nx flux mask median_iterations min_sqm sigdetect sqrtQ i j = 1 := by
  unfold edgeImgPre
  dsimp only
  split
  · exact Or.inl rfl
  · split
    · exact Or.inr (Or.inr rfl)
    · exact Or.inr (Or.inl rfl)

/-- A `-1` (left-edge) pixel has significance above the threshold. -/
theorem edgeImgPre_neg_sig (ny nx : ℕ) (flux : ℤ → ℤ → ℚ) (mask : ℤ → ℤ → Bool)
    (median_iterations : ℕ) (min_sqm sigdetect : ℚ) (sqrtQ : ℚ → ℚ) (i j : ℤ)
    (h : edgeImgPre ny nx flux mask median_iterations min_sqm sigdetect sqrtQ i j = -1) :
    sigdetect < sobelSig ny nx flux mask median_iterations min_sqm sqrtQ i j := by
  unfold edgeImgPre at h
  dsimp only at h
  split at h
  · rename_i hcl
    have ht := hcl.2
    unfold tedges at ht
    dsimp only at ht
    split at ht
    · exact absurd ht (by decide)
    · split at ht
      · assumption
      · exact absurd ht (by decide)
  · split at h
    · exact absurd h (by decide)
    · exact absurd h (by decide)

/-- A `+1` (right-edge) pixel has significance below the negated threshold. -/
theorem edgeImgPre_pos_sig (ny nx : ℕ) (flux : ℤ → ℤ → ℚ) (mask : ℤ → ℤ → Bool)
    (median_iterations : ℕ) (min_sqm sigdetect : ℚ) (sqrtQ : ℚ → ℚ) (i j : ℤ)
    (h : edgeImgPre ny nx flux mask median_iterations min_sqm sigdetect sqrtQ i j = 1) :
    sobelSig ny nx flux mask median_iterations min_sqm sqrtQ i j < -sigdetect := by
  unfold edgeImgPre at h
  dsimp only at h
  split at h
  · exact absurd h (by decide)
  · split at h
    · rename_i hcr
      have ht := hcr.2
      unfold tedges at ht
      dsimp only at ht
      split at ht
      · assumption
      · split at ht
        · exact absurd ht (by decide)
        · exact absurd ht (by decide)
    · exact absurd h (by decide)

/-- C2: `detect_slit_edges` returns an edge image with values only in
`{-1, 0, 1}`; `-1` only where the returned significance exceeds
`sigdetect`, `+1` only where it is below `-sigdetect`, and `0` at every
pixel of the input bad-pixel mask. -/
theorem detect_slit_edges_sign_convention
    (ny nx : ℕ) (flux : ℤ → ℤ → ℚ) (maskO : Option (ℤ → ℤ → Bool))
    (median_iterations : ℕ) (min_sqm sigdetect : ℚ) (sqrtQ : ℚ → ℚ) (i j : ℤ) :
    (((detect_slit_edges ny nx flux maskO median_iterations min_sqm sigdetect sqrtQ).2 i j = -1 ∨
      (detect_slit_edges ny nx flux maskO median_iterations min_sqm sigdetect sqrtQ).2 i j = 0 ∨
      (detect_slit_edges ny nx flux maskO median_iterations min_sqm sigdetect sqrtQ).2 i j = 1) ∧
     ((detect_slit_edges ny nx flux maskO median_iterations min_sqm sigdetect sqrtQ).2 i j = -1 →
       sigdetect <
         (detect_slit_edges ny nx flux maskO median_iterations min_sqm sigdetect sqrtQ).1 i j) ∧
     ((detect_slit_edges ny nx flux maskO median_iterations min_sqm sigdetect sqrtQ).2 i j = 1 →
       (detect_slit_edges ny nx flux maskO median_iterations min_sqm sigdetect sqrtQ).1 i j
         < -sigdetect) ∧
     (∀ m, maskO = some m → m i j = true →
       (detect_slit_edges ny nx flux maskO median_iterations min_sqm sigdetect sqrtQ).2 i j
         = 0)) := by
  rcases maskO with _ | m
  · simp only [detect_slit_edges]
    refine ⟨edgeImgPre_mem _ _ _ _ _ _ _ _ _ _,
      fun h => edgeImgPre_neg_sig _ _ _ _ _ _ _ _ _ _ h,
      fun h => edgeImgPre_pos_sig _ _ _ _ _ _ _ _ _ _ h,
      fun m hm => Option.noConfusion hm⟩
  · simp only [detect_slit_edges]
    by_cases hm : m i j = true
    · refine ⟨?_, ?_, ?_, ?_⟩
      · simp [hm]
      · simp [hm]
      · simp [hm]
      · intro m2 hm2 hm2t
        have : m2 = m := by
          have := Option.some.inj hm2
          exact this.symm
        subst this
        simp [hm]
    · have hm2 : m i j = false := by
        simpa using hm
      refine ⟨?_, ?_, ?_, ?_⟩
      · simp only [hm2, Bool.false_eq_true, if_false]
        exact edgeImgPre_mem _ _ _ _ _ _ _ _ _ _
      · simp only [hm2, Bool.false_eq_true, if_false]
        exact fun h => edgeImgPre_neg_sig _ _ _ _ _ _ _ _ _ _ h
      · simp only [hm2, Bool.false_eq_true, if_false]
        exact fun h => edgeImgPre_pos_sig _ _ _ _ _ _ _ _ _ _ h
      · intro m2 hm2e hm2t
        have heq : m2 = m := (Option.some.inj hm2e).symm
        subst heq
        rw [hm2] at hm2t
        exact Bool.noConfusion hm2t

unseal Rat.add Rat.mul Rat.sub Rat.inv in
set_option maxRecDepth 8000 in
/-- Witness for C2: a step image produces a left-edge pixel (`-1`) at the
step, and the theorem yields its significance above the threshold. -/
theorem detect_slit_edges_sign_convention_witness :
    (30 : ℚ) <
      (detect_slit_edges 2 4 (fun _ j => if j ≥ 2 then 10000 else 0) none 0 30 30 id).1 0 1 :=
  (detect_slit_edges_sign_convention 2 4 (fun _ j => if j ≥ 2 then 10000 else 0) none 0 30 30
    id 0 1).2.1 (by decide)

/-! ## `identify_traces` (new_trace.py lines 1315-1428): the ID-assignment loop

The claim concerns the row loop (lines 1362-1398) that links edge pixels
across rows into trace IDs.  Points are `(row, y)` pairs in the array order
of the source (`y` is the signed column: left-edge columns are negated
before the loop).  The state is the `trace` array (`-1` = unassigned, as in
`np.full_like(x, -1)`) and the `last` fresh-ID counter. -/

/-- The unique previous `(y, trace)` pairs: `np.unique(y[prev_indx],
return_index=True)` keeps the first occurrence of each `y` (in array
order) and returns the values sorted by `y`. -/
def uniqYT (l : List (ℤ × ℤ)) : List (ℤ × ℤ) :=
  List.insertionSort (fun a b => a.1 ≤ b.1)
    (l.foldl (fun acc p => if acc.any (fun q => q.1 = p.1) then acc else acc ++ [p]) [])

/-- `mindist = np.argmin(dist)`: the entry minimizing `|y - c|`, the first
(smallest `y`) among ties of the sorted unique list. -/
def nearestEntry (uniq : List (ℤ × ℤ)) (c : ℤ) : Option (ℤ × ℤ) :=
  uniq.foldl (fun best p =>
    match best with
    | none => some p
    | some b => if |p.1 - c| < |b.1 - c| then some p else best) none

/-- The `(y, trace)` pairs of points in the sliding window
`x < row and x > row - spectral_memory`. -/
def prevEntries (pts : List (ℤ × ℤ)) (trace : List ℤ) (row mem : ℤ) : List (ℤ × ℤ) :=
  (pts.zip trace).filterMap (fun p =>
    if p.1.1 < row ∧ row - mem < p.1.1 then some (p.1.2, p.2) else none)

/-- Write `vals` into `trace` at positions `idxs` (the row's points). -/
def writeAt (trace : List ℤ) (idxs : List ℕ) (vals : List ℤ) : List ℤ :=
  (idxs.zip vals).foldl (fun t p => t.set p.1 p.2) trace

/-- Row-ID assignment: each point matches the nearest previous unique `y`
when strictly within `max_spatial_separation`, and the unmatched points
mint fresh IDs `last, last+1, ...` in positional order. -/
def assignRowTraces (uniq : List (ℤ × ℤ)) (msep : ℤ) (ys : List ℤ) (last : ℤ) :
    List ℤ × ℤ :=
  let rt := ys.map (fun c =>
    match nearestEntry uniq c with
    | some p => if |p.1 - c| < msep then p.2 else -1
    | none => -1)
  rt.foldl (fun acc t =>
    if t = -1 then (acc.1 ++ [acc.2], acc.2 + 1) else (acc.1 ++ [t], acc.2)) ([], last)

/-- One iteration of the row loop of `identify_traces`. -/
def identifyStep (pts : List (ℤ × ℤ)) (msep mem : ℤ) (st : List ℤ × ℤ) (row : ℤ) :
    List ℤ × ℤ :=
  let idxs := (List.range pts.length).filter (fun i => (pts.getD i (0, 0)).1 = row)
  if idxs = [] then st
  else
    let prev := prevEntries pts st.1 row mem
    if prev = [] then
      -- `trace[indx] = np.arange(in_row)+last`
      (writeAt st.1 idxs ((List.range idxs.length).map (fun k => st.2 + k)),
       st.2 + idxs.length)
    else
      let res := assignRowTraces (uniqYT prev) msep
        (idxs.map (fun i => (pts.getD i (0, 0)).2)) st.2
      (writeAt st.1 idxs res.1, res.2)

/-- The full ID-assignment loop over `range(np.amin(x), np.amax(x)+1)`. -/
def assignTraceIDs (pts : List (ℤ × ℤ)) (msep mem : ℤ) : List ℤ × ℤ :=
  if pts = [] then ([], 0)
  else
    let xs := pts.map (fun p => p.1)
    let xmin := xs.foldl min (xs.headD 0)
    let xmax := xs.foldl max (xs.headD 0)
    let rows := (List.range (xmax - xmin + 1).toNat).map (fun k : ℕ => xmin + (k : ℤ))
    rows.foldl (identifyStep pts msep mem) (List.replicate pts.length (-1), 0)

/-- A row with no edge pixels leaves the loop state unchanged
(`if in_row == 0: continue`). -/
theorem identifyStep_empty_row (pts : List (ℤ × ℤ)) (msep mem : ℤ) (st : List ℤ × ℤ)
    (row : ℤ) (h : ∀ i, i < pts.length → (pts.getD i (0, 0)).1 ≠ row) :
    identifyStep pts msep mem st row = st := by
  unfold identifyStep
  have hfil : ((List.range pts.length).filter
      (fun i => decide ((pts.getD i (0, 0)).1 = row))) = [] := by
    rw [List.filter_eq_nil_iff]
    intro a ha
    simp only [decide_eq_true_eq]
    exact h a (List.mem_range.mp ha)
  dsimp only
  rw [hfil]
  rw [if_pos rfl]

/-- Folding the loop over rows with no edge pixels is the identity. -/
theorem foldl_identifyStep_empty (pts : List (ℤ × ℤ)) (msep mem : ℤ) (rows : List ℤ)
    (st : List ℤ × ℤ)
    (h : ∀ r ∈ rows, ∀ i, i < pts.length → (pts.getD i (0, 0)).1 ≠ r) :
    rows.foldl (identifyStep pts msep mem) st = st := by
  induction rows generalizing st with
  | nil => rfl
  | cons r rest ih =>
    rw [List.foldl_cons, identifyStep_empty_row pts msep mem st r
      (h r (List.mem_cons_self r rest))]
    exact ih st (fun r2 hr2 => h r2 (List.mem_cons_of_mem r hr2))

/-- The loop at the first occupied row: no window entries exist, so the
single edge pixel gets the fresh ID `0`. -/
theorem identifyStep_first_row (r0 r1 c0 c1 msep mem : ℤ) (h01 : r0 < r1) :
    identifyStep [(r0, c0), (r1, c1)] msep mem ([-1, -1], 0) r0 = ([0, -1], 1) := by
  unfold identifyStep
  dsimp only
  have h10 : ¬(r1 = r0) := by omega
  have hfil : ((List.range ([((r0 : ℤ), c0), (r1, c1)]).length).filter
      (fun i => decide (([((r0 : ℤ), c0), (r1, c1)].getD i (0, 0)).1 = r0))) = [0] := by
    simp [List.range_succ, List.filter, h10]
  rw [hfil]
  have hprev : prevEntries [((r0 : ℤ), c0), (r1, c1)] ([-1, -1] : List ℤ) r0 mem = [] := by
    unfold prevEntries
    have hc1 : ¬(r0 < r0 ∧ r0 - mem < r0) := by omega
    have hc2 : ¬(r1 < r0 ∧ r0 - mem < r1) := by omega
    simp [List.zip, hc1, hc2]
  rw [hprev]
  rw [if_pos rfl]
  unfold writeAt
  rfl

/-- The loop at the reappearance row: the pixel inherits ID `0` exactly
when the first pixel is inside the sliding window (`row - memory < r0`,
i.e. `r1 - r0 < memory`) and the column offset is strictly within
`max_spatial_separation`; otherwise it mints the fresh ID `1`. -/
theorem identifyStep_reappearance_row (r0 r1 c0 c1 msep mem : ℤ) (h01 : r0 < r1) :
    identifyStep [(r0, c0), (r1, c1)] msep mem ([0, -1], 1) r1
      = ([0, if r1 - r0 < mem ∧ |c1 - c0| < msep then 0 else 1],
         if r1 - r0 < mem ∧ |c1 - c0| < msep then 1 else 2) := by
  unfold identifyStep
  dsimp only
  have h10 : ¬(r0 = r1) := by omega
  have hfil : ((List.range ([((r0 : ℤ), c0), (r1, c1)]).length).filter
      (fun i => decide (([((r0 : ℤ), c0), (r1, c1)].getD i (0, 0)).1 = r1))) = [1] := by
    simp [List.range_succ, List.filter, h10]
  rw [hfil]
  by_cases hmem : r1 - mem < r0
  · have hprev : prevEntries [((r0 : ℤ), c0), (r1, c1)] ([0, -1] : List ℤ) r1 mem
        = [(c0, 0)] := by
      unfold prevEntries
      have hc1 : r0 < r1 ∧ r1 - mem < r0 := ⟨h01, hmem⟩
      have hc2 : ¬(r1 < r1 ∧ r1 - mem < r1) := by omega
      simp [List.zip, hc1, hc2]
    rw [hprev]
    rw [if_neg (by simp)]
    by_cases habs : |c0 - c1| < msep
    · have hcond : r1 - r0 < mem ∧ |c1 - c0| < msep := ⟨by omega, abs_sub_comm c0 c1 ▸ habs⟩
      rw [if_pos hcond, if_pos hcond]
      simp only [assignRowTraces, uniqYT, nearestEntry, writeAt]
      simp [habs, List.insertionSort]
    · have hcond : ¬(r1 - r0 < mem ∧ |c1 - c0| < msep) := by
        intro hc
        exact habs (abs_sub_comm c1 c0 ▸ hc.2)
      rw [if_neg hcond, if_neg hcond]
      simp only [assignRowTraces, uniqYT, nearestEntry, writeAt]
      simp [habs, List.insertionSort]
      rfl
  · have hprev : prevEntries [((r0 : ℤ), c0), (r1, c1)] ([0, -1] : List ℤ) r1 mem = [] := by
      unfold prevEntries
      have hc1 : ¬(r0 < r1 ∧ r1 - mem < r0) := by omega
      have hc2 : ¬(r1 < r1 ∧ r1 - mem < r1) := by omega
      simp [List.zip, hc1, hc2]
    rw [hprev]
    rw [if_pos rfl]
    have hcond : ¬(r1 - r0 < mem ∧ |c1 - c0| < msep) := by omega
    rw [if_neg hcond, if_neg hcond]
    unfold writeAt
    rfl

/-- Decomposition of the loop's row range `range(amin(x), amax(x)+1)` for
two occupied rows: the first row, the empty gap rows, the last row. -/
theorem range_map_decomp (r0 r1 : ℤ) (h : r0 < r1) :
    (List.range (r1 - r0 + 1).toNat).map (fun k : ℕ => r0 + (k : ℤ))
      = r0 :: (((List.range (r1 - r0 - 1).toNat).map (fun k : ℕ => r0 + 1 + (k : ℤ))) ++ [r1]) := by
  have hn : (r1 - r0 + 1).toNat = ((r1 - r0 - 1).toNat + 1) + 1 := by omega
  rw [hn, List.range_succ, List.map_append, List.range_succ_eq_map]
  simp only [List.map_cons, List.map_map, List.map_nil]
  simp only [Nat.cast_zero, add_zero, List.cons_append]
  congr 1
  congr 1
  · apply List.map_congr_left
    intro a _
    simp only [Function.comp_apply, Nat.succ_eq_add_one]
    push_cast
    ring
  · have hlast : r0 + ((((r1 - r0 - 1).toNat + 1 : ℕ)) : ℤ) = r1 := by
      push_cast
      omega
    rw [hlast]

/-- C3 (amended): for an edge present at row `r0`, absent through a run of
empty rows, and reappearing at row `r1`, the `identify_traces` row loop
links the two pixels into one trace ID exactly when the row separation is
strictly less than `spectral_memory` (the sliding window `x > row -
spectral_memory` of the code, i.e. at most `spectral_memory - 2` empty
rows) *and* the column offset is strictly within
`max_spatial_separation`; otherwise the reappearance mints a fresh ID,
splitting the edge into two traces. -/
theorem assignTraceIDs_two_point_linking (r0 r1 c0 c1 msep mem : ℤ) (h01 : r0 < r1) :
    (assignTraceIDs [(r0, c0), (r1, c1)] msep mem).1 =
      [0, if r1 - r0 < mem ∧ |c1 - c0| < msep then 0 else 1] := by
  unfold assignTraceIDs
  rw [if_neg (by simp)]
  dsimp only
  have hxmin : min (min r0 r0) r1 = r0 := by omega
  have hxmax : max (max r0 r0) r1 = r1 := by omega
  simp only [List.map_cons, List.map_nil, List.foldl_cons, List.foldl_nil, List.headD_cons]
  rw [hxmin, hxmax]
  rw [range_map_decomp r0 r1 h01]
  rw [List.foldl_cons]
  have hrep : (List.replicate ([((r0 : ℤ), c0), (r1, c1)]).length (-1 : ℤ)) = [-1, -1] := rfl
  rw [hrep, identifyStep_first_row r0 r1 c0 c1 msep mem h01]
  have hmid : ∀ r ∈ (List.range (r1 - r0 - 1).toNat).map (fun k : ℕ => r0 + 1 + (k : ℤ)),
      ∀ i, i < ([((r0 : ℤ), c0), (r1, c1)]).length →
        (([((r0 : ℤ), c0), (r1, c1)]).getD i (0, 0)).1 ≠ r := by
    intro r hr i hi
    simp only [List.mem_map, List.mem_range] at hr
    obtain ⟨k, hk, rfl⟩ := hr
    have hi2 : i = 0 ∨ i = 1 := by
      simp only [List.length_cons, List.length_nil] at hi
      omega
    rcases hi2 with rfl | rfl
    · simp only [List.getD_cons_zero]
      omega
    · simp only [List.getD_cons_succ, List.getD_cons_zero]
      omega
  rw [List.foldl_append,
      foldl_identifyStep_empty [(r0, c0), (r1, c1)] msep mem _ ([0, -1], 1) hmid]
  rw [List.foldl_cons, List.foldl_nil]
  rw [identifyStep_reappearance_row r0 r1 c0 c1 msep mem h01]

/-- Counterexample to C3 as stated: the edge at column 5 vanishes for 9
rows — a gap *smaller* than the `spectral_memory` of 10 — and reappears
with zero column offset (within `max_spatial_separation = 4`), yet the
loop assigns a fresh trace ID (`[0, 1]`), splitting the edge, because the
sliding window `x > row - spectral_memory` no longer contains row 0. -/
theorem assignTraceIDs_gap_below_memory_still_splits :
    ((10 : ℤ) - 0 - 1 < 10 ∧ |(5 : ℤ) - 5| < 4) ∧
      (assignTraceIDs [(0, 5), (10, 5)] 4 10).1 = [0, 1] := by decide

/-- Witness for the amended C3: with a row separation of 9 < 10 the two
pixels share trace ID 0. -/
theorem assignTraceIDs_two_point_linking_witness :
    (assignTraceIDs [(0, 5), (9, 5)] 4 10).1 =
      [0, if (9 : ℤ) - 0 < 10 ∧ |(5 : ℤ) - 5| < 4 then 0 else 1] :=
  assignTraceIDs_two_point_linking 0 9 5 5 4 10 (by decide)

/-! ## `EdgeTraceSet` state and its trace-management methods

The per-trace arrays of shape `(nspec, ntrace)` are embedded column-major:
each list entry is one trace's column of `nspec` values (`numpy`'s
`[:, keep]` selections and `[:, srt]` permutations act on whole columns). -/

structure EdgeTraceSet where
  nspec : ℕ
  traceid : List ℤ
  spat_img : List (List ℤ)
  spat_cen : List (List ℚ)
  spat_err : List (List ℚ)
  spat_msk : List (List ℕ)
  spat_fit : Option (List (List ℚ))
deriving DecidableEq, Repr

/-- `array[:, keep]`: keep the columns with a `True` keep flag. -/
def selectCols {α : Type} (keep : List Bool) (cols : List α) : List α :=
  (keep.zip cols).filterMap (fun p => if p.1 then some p.2 else none)

/-- `array[:, srt]`: reorder columns by the index list. -/
def permute {α : Type} (cols : List α) (srt : List ℕ) (d : α) : List α :=
  srt.map (fun i => cols.getD i d)

/-- `np.mean(col, axis=0)` for one column. -/
def colMean (col : List ℚ) : ℚ := col.sum / col.length

/-- Everything `numpy` documents about `np.argsort` over the index range
`0..n-1` with the given keys: the result is a permutation of `range n`
along which the keys are nondecreasing.  The relative order of tied keys
is NOT fixed by this contract — the default `kind='quicksort'` is an
unstable introsort (its argsort of a constant array longer than 16
entries is not the identity permutation) — so `resort_trace_ids` takes
the argsort routine as an explicit parameter constrained only by this
contract, like the other external numerics. -/
def isArgsort (impl : (ℕ → ℚ) → ℕ → List ℕ) : Prop :=
  ∀ key n, (impl key n).Perm (List.range n) ∧
    List.Sorted (fun i j => key i ≤ key j) (impl key n)

/-- `traceid[traceid < 0] = -1-np.arange(...)`, `traceid[~(traceid < 0)] =
1+np.arange(...)`: renumber in positional order with separate negative and
positive counters. -/
def renumberAux (neg pos : ℕ) : List ℤ → List ℤ
  | [] => []
  | t :: rest =>
    if t < 0 then (-1 - (neg : ℤ)) :: renumberAux (neg + 1) pos rest
    else (1 + (pos : ℤ)) :: renumberAux neg (pos + 1) rest

/-- `EdgeTraceSet.resort_trace_ids`: sort the traces by their mean measured
spatial position (`srt = np.argsort(np.mean(self.spat_cen, axis=0))`) and
renumber the IDs (negative = left, positive = right) in the new order.
The external `np.argsort` routine is a parameter (see `isArgsort`). -/
def resort_trace_ids (argsort : (ℕ → ℚ) → ℕ → List ℕ) (s : EdgeTraceSet) : EdgeTraceSet :=
  let n := s.traceid.length
  let srt := argsort (fun i => colMean (s.spat_cen.getD i [])) n
  { nspec := s.nspec
    traceid := renumberAux 0 0 (permute s.traceid srt 0)
    spat_img := permute s.spat_img srt []
    spat_cen := permute s.spat_cen srt []
    spat_err := permute s.spat_err srt []
    spat_msk := permute s.spat_msk srt []
    spat_fit := s.spat_fit.map (fun f => permute f srt []) }

/-- `EdgeTraceSet.remove_traces`: drop the selected traces (`keep =
np.invert(indx)`), optionally resorting the IDs (which consumes the
external `np.argsort` parameter). -/
def remove_traces (argsort : (ℕ → ℚ) → ℕ → List ℕ) (s : EdgeTraceSet)
    (indx : List Bool) (sortid : Bool) : EdgeTraceSet :=
  let keep := indx.map (fun b => !b)
  let s2 : EdgeTraceSet :=
    { nspec := s.nspec
      traceid := selectCols keep s.traceid
      spat_img := selectCols keep s.spat_img
      spat_cen := selectCols keep s.spat_cen
      spat_err := selectCols keep s.spat_err
      spat_msk := selectCols keep s.spat_msk
      spat_fit := s.spat_fit.map (selectCols keep) }
  if sortid then resort_trace_ids argsort s2 else s2

/-- The masked minimum column distance between candidate trace `j` and the
already-committed traces of the same side (`compare`): the minimum of
`|col[r,j] - spat_img[r,t]|` over all rows `r` and compare traces `t`
where both cells are unmasked; `none` when every pairing is masked. -/
def minTraceDiff (s : EdgeTraceSet) (col : List (List ℤ)) (msk : List (List ℕ))
    (compare : List Bool) (j : ℕ) : Option ℤ :=
  let diffs := (List.range s.traceid.length).flatMap (fun t =>
    if compare.getD t false then
      (List.range s.nspec).filterMap (fun r =>
        if (msk.getD j []).getD r 0 = 0 ∧ ((s.spat_msk.getD t []).getD r 0 = 0) then
          some |(col.getD j []).getD r 0 - (s.spat_img.getD t []).getD r 0|
        else none)
    else [])
  match diffs with
  | [] => none
  | d :: rest => some (rest.foldl min d)

/-- `EdgeTraceSet.check_traces`: flag duplicate (DUPLICATE), too-short
(TOOSHORT) and detector-edge-pinned (HITMIN/HITMAX) candidate traces,
editing the mask bits, and return the good/bad selections.  The
`hit_min`/`hit_max` diagnostic prints reference the undefined names
`hitmin`/`hitmax` (the variables are `hit_min`/`hit_max`), so reaching
either branch raises a `NameError` after the bits are turned on; the
embedding returns it as an `Except.error`.  `cen`/`err`/`msk` carry one
column per trace, as every caller passes full-size arrays. -/
def check_traces (s : EdgeTraceSet) (cen err : List (List ℚ)) (msk : List (List ℕ))
    (subset : Option (List Bool)) (match_tolerance : ℚ) (minimum_length : Option ℚ)
    (mincol maxcol : Option ℤ) :
    Except String (List Bool × List Bool × List (List ℕ)) :=
  let n := s.traceid.length
  -- `col = np.round(cen).astype(int)`
  let col := cen.map (List.map npRound)
  let indx := subset.getD (List.replicate n true)
  -- duplicate detection (only with a subset, against the other traces of
  -- the same side)
  let rep : List Bool :=
    match subset with
    | none => List.replicate n false
    | some _ =>
      let sflag : ℤ :=
        if (List.range n).all (fun j => !(indx.getD j false) || decide (s.traceid.getD j 0 < 0))
        then -1 else 1
      let compare := (List.range n).map (fun t =>
        decide (sflag * s.traceid.getD t 0 > 0) && !(indx.getD t false))
      if compare.any id then
        (List.range n).map (fun j =>
          if indx.getD j false then
            match minTraceDiff s col msk compare j with
            | some d => decide ((d : ℚ) < match_tolerance)
            | none => false
          else false)
      else List.replicate n false
  let msk1 := (List.range n).map (fun j =>
    if rep.getD j false then (msk.getD j []).map (fun w => turn_on w DUPLICATE)
    else msk.getD j [])
  -- `short`: too few unmasked rows (uses the updated mask)
  let short : List Bool :=
    match minimum_length with
    | none => List.replicate n false
    | some frac => (List.range n).map (fun j =>
        indx.getD j false &&
          decide ((((List.range s.nspec).filter
            (fun r => (msk1.getD j []).getD r 0 = 0)).length : ℚ) < frac * s.nspec))
  let msk2 := (List.range n).map (fun j =>
    if short.getD j false then (msk1.getD j []).map (fun w => turn_on w TOOSHORT)
    else msk1.getD j [])
  -- `hit_min`: pinned at the minimum column at the central row
  let hmin : List Bool :=
    match mincol with
    | none => List.replicate n false
    | some mc => (List.range n).map (fun j =>
        indx.getD j false && decide ((col.getD j []).getD (s.nspec / 2) 0 ≤ mc) &&
          decide ((msk2.getD j []).getD (s.nspec / 2) 0 = 0))
  if hmin.any id then
    -- the bits are turned on in place, then
    -- `print('{0} traces hit the minimum centroid value.'.format(np.sum(hitmin)))`
    -- raises: `hitmin` is not defined (the variable is `hit_min`)
    .error "NameError: name hitmin is not defined"
  else
    let msk3 := (List.range n).map (fun j =>
      if hmin.getD j false then (msk2.getD j []).map (fun w => turn_on w HITMIN)
      else msk2.getD j [])
    let hmax : List Bool :=
      match maxcol with
      | none => List.replicate n false
      | some mc => (List.range n).map (fun j =>
          indx.getD j false && decide (mc ≤ (col.getD j []).getD (s.nspec / 2) 0) &&
            decide ((msk3.getD j []).getD (s.nspec / 2) 0 = 0))
    if hmax.any id then
      .error "NameError: name hitmax is not defined"
    else
      let msk4 := (List.range n).map (fun j =>
        if hmax.getD j false then (msk3.getD j []).map (fun w => turn_on w HITMAX)
        else msk3.getD j [])
      let bad := (List.range n).map (fun j =>
        indx.getD j false &&
          (rep.getD j false || short.getD j false || hmin.getD j false || hmax.getD j false))
      let good := (List.range n).map (fun j => indx.getD j false && !(bad.getD j false))
      .ok (good, bad, msk4)

unseal Rat.add Rat.mul Rat.sub Rat.inv in
/-- C6 (code bug): a single candidate trace whose rounded central-row
column (0) reaches `mincol = 0` takes the `hit_min` branch of
`check_traces`; the branch turns HITMIN on and then its diagnostic print
references the undefined name `hitmin` (the variable is `hit_min`), so the
call raises `NameError` instead of returning the good/bad selections. -/
theorem check_traces_hitmin_nameerror :
    check_traces ⟨1, [-1], [[0]], [[0]], [[1]], [[0]], none⟩ [[0]] [[1]] [[0]]
      none 3 none (some 0) none
      = .error "NameError: name hitmin is not defined" := by decide

/-- `getD` through a map, for in-range indices. -/
theorem getD_map_of_lt {α β : Type} (f : α → β) (l : List α) (i : ℕ) (h : i < l.length)
    (d : β) (d' : α) : (l.map f).getD i d = f (l.getD i d') := by
  rw [List.getD_eq_getElem?_getD, List.getElem?_map, List.getElem?_eq_getElem h,
      List.getD_eq_getElem?_getD, List.getElem?_eq_getElem h]
  rfl

/-- `getD` as `get` for in-range indices. -/
theorem getD_eq_get {α : Type} (l : List α) (i : ℕ) (h : i < l.length) (d : α) :
    l.getD i d = l.get ⟨i, h⟩ := by
  rw [List.getD_eq_getElem?_getD, List.getElem?_eq_getElem h]
  rfl

/-- An all-`True` column selection of matching length is the identity. -/
theorem selectCols_all_true {α : Type} (keep : List Bool) (cols : List α)
    (hk : ∀ b ∈ keep, b = true) (hl : keep.length = cols.length) :
    selectCols keep cols = cols := by
  induction keep generalizing cols with
  | nil =>
    cases cols with
    | nil => rfl
    | cons c t => exact absurd hl (by simp)
  | cons b rest ih =>
    cases cols with
    | nil => exact absurd hl (by simp)
    | cons c t =>
      have hb : b = true := hk b (List.mem_cons_self b rest)
      subst hb
      have := ih t (fun x hx => hk x (List.mem_cons_of_mem _ hx)) (by simpa using hl)
      simp only [selectCols] at this ⊢
      simp [List.zip_cons_cons, List.filterMap_cons, this]

/-- Reading every index of a list back in order reproduces the list. -/
theorem map_getD_range_eq_self {α : Type} (l : List α) (d : α) :
    (List.range l.length).map (fun i => l.getD i d) = l := by
  induction l with
  | nil => rfl
  | cons a t ih =>
    rw [List.length_cons, List.range_succ_eq_map, List.map_cons, List.map_map]
    have h2 : ((fun i => (a :: t).getD i d) ∘ Nat.succ) = fun i => t.getD i d := by
      funext i
      simp [List.getD_cons_succ]
    rw [h2, ih]
    simp

/-- Permuting by the identity index list is the identity. -/
theorem permute_range_self {α : Type} (l : List α) (d : α) :
    permute l (List.range l.length) d = l := map_getD_range_eq_self l d

/-- `renumberAux` is determined by the sign pattern, and its output has the
sign pattern of its input, so renumbering twice equals renumbering once
(with any starting counters on the inner pass). -/
theorem renumberAux_idem (a b a2 b2 : ℕ) (l : List ℤ) :
    renumberAux a b (renumberAux a2 b2 l) = renumberAux a b l := by
  induction l generalizing a b a2 b2 with
  | nil => rfl
  | cons t rest ih =>
    by_cases ht : t < 0
    · simp only [renumberAux, if_pos ht, if_pos (show (-1 - (a2 : ℤ)) < 0 by omega)]
      rw [ih]
    · simp only [renumberAux, if_neg ht, if_neg (show ¬((1 + (b2 : ℤ)) < 0) by omega)]
      rw [ih]

/-- `renumberAux` preserves length. -/
theorem renumberAux_length (a b : ℕ) (l : List ℤ) :
    (renumberAux a b l).length = l.length := by
  induction l generalizing a b with
  | nil => rfl
  | cons t rest ih =>
    by_cases ht : t < 0
    · simp only [renumberAux, if_pos ht, List.length_cons, ih]
    · simp only [renumberAux, if_neg ht, List.length_cons, ih]

/-- An in-range `getD` read is a member of the list. -/
theorem getD_mem_of_lt {α : Type} (l : List α) (i : ℕ) (h : i < l.length) (d : α) :
    l.getD i d ∈ l := by
  rw [List.getD_eq_getElem?_getD, List.getElem?_eq_getElem h]
  exact List.getElem_mem h

/-- Any output meeting the argsort contract for keys that are strictly
increasing on `0..n-1` is the identity permutation `range n`: a
rearrangement of the indices whose keys are nondecreasing must list
strictly separated indices in increasing order, and a sorted permutation
of a sorted list is that list (this is why the second `np.argsort` in an
already-sorted state with distinct keys is forced, whatever its tie
behaviour). -/
theorem sorted_perm_of_strict_eq_range (l : List ℕ) (key : ℕ → ℚ) (n : ℕ)
    (hperm : l.Perm (List.range n))
    (hsorted : List.Sorted (fun i j => key i ≤ key j) l)
    (hstrict : ∀ i j, i < n → j < n → i < j → key i < key j) :
    l = List.range n := by
  have hle : List.Sorted (· ≤ ·) l := by
    refine List.Pairwise.imp_of_mem ?_ hsorted
    intro a b ha hb hab
    by_contra hba
    push_neg at hba
    have han : a < n := by simpa using hperm.mem_iff.mp ha
    have hbn : b < n := by simpa using hperm.mem_iff.mp hb
    exact absurd hab (not_le.mpr (hstrict b a hbn han hba))
  exact List.eq_of_perm_of_sorted hperm hle (List.pairwise_le_range n)

/-- A trace set on which the argsort of the column means returns the
identity permutation (and whose IDs are already a renumbering fixed
point) is unchanged by `resort_trace_ids`. -/
theorem resort_eq_of_sorted (argsort : (ℕ → ℚ) → ℕ → List ℕ) (s1 : EdgeTraceSet)
    (hsrt : argsort (fun i => colMean (s1.spat_cen.getD i [])) s1.traceid.length
      = List.range s1.traceid.length)
    (himg : s1.spat_img.length = s1.traceid.length)
    (hcen : s1.spat_cen.length = s1.traceid.length)
    (herr : s1.spat_err.length = s1.traceid.length)
    (hmsk : s1.spat_msk.length = s1.traceid.length)
    (hfit : ∀ f, s1.spat_fit = some f → f.length = s1.traceid.length)
    (hid : renumberAux 0 0 s1.traceid = s1.traceid) :
    resort_trace_ids argsort s1 = s1 := by
  obtain ⟨ns, tid, img, cen, err, msk, fit⟩ := s1
  have hsrt2 : argsort (fun i => colMean (cen.getD i [])) tid.length
      = List.range tid.length := hsrt
  unfold resort_trace_ids
  dsimp only
  rw [hsrt2]
  congr 1
  · rw [permute_range_self tid 0, hid]
  · rw [← himg, permute_range_self img []]
  · rw [← hcen, permute_range_self cen []]
  · rw [← herr, permute_range_self err []]
  · rw [← hmsk, permute_range_self msk []]
  · cases fit with
    | none => rfl
    | some f =>
      have hf2 : f.length = tid.length := by simpa using hfit f rfl
      rw [← hf2]
      simp [permute_range_self f []]

/-- For every implementation meeting the `np.argsort` contract,
`resort_trace_ids` is idempotent on a state whose per-trace mean
positions are pairwise distinct: the first call leaves the means strictly
increasing along the columns, so the contract forces the second argsort
to be the identity permutation, and the renumbering is a fixed point.
(With tied means the contract does not determine the reordering and a
second call need not be a no-op.) -/
theorem resort_trace_ids_idem_of_distinct (argsort : (ℕ → ℚ) → ℕ → List ℕ)
    (hsort : isArgsort argsort) (s : EdgeTraceSet)
    (hdist : ∀ i < s.traceid.length, ∀ j < s.traceid.length, i ≠ j →
      colMean (s.spat_cen.getD i []) ≠ colMean (s.spat_cen.getD j [])) :
    resort_trace_ids argsort (resort_trace_ids argsort s)
      = resort_trace_ids argsort s := by
  obtain ⟨hperm1, hsorted1⟩ :=
    hsort (fun i => colMean (s.spat_cen.getD i [])) s.traceid.length
  have hfields : resort_trace_ids argsort s =
      { nspec := s.nspec
        traceid := renumberAux 0 0 (permute s.traceid
          (argsort (fun i => colMean (s.spat_cen.getD i [])) s.traceid.length) 0)
        spat_img := permute s.spat_img
          (argsort (fun i => colMean (s.spat_cen.getD i [])) s.traceid.length) []
        spat_cen := permute s.spat_cen
          (argsort (fun i => colMean (s.spat_cen.getD i [])) s.traceid.length) []
        spat_err := permute s.spat_err
          (argsort (fun i => colMean (s.spat_cen.getD i [])) s.traceid.length) []
        spat_msk := permute s.spat_msk
          (argsort (fun i => colMean (s.spat_cen.getD i [])) s.traceid.length) []
        spat_fit := s.spat_fit.map (fun f => permute f
          (argsort (fun i => colMean (s.spat_cen.getD i [])) s.traceid.length) []) } := rfl
  have hsl : (argsort (fun i => colMean (s.spat_cen.getD i []))
      s.traceid.length).length = s.traceid.length := by
    rw [hperm1.length_eq, List.length_range]
  have htl : (resort_trace_ids argsort s).traceid.length
      = (argsort (fun i => colMean (s.spat_cen.getD i [])) s.traceid.length).length := by
    rw [hfields]
    unfold permute
    rw [renumberAux_length, List.length_map]
  have hnd1 : (argsort (fun i => colMean (s.spat_cen.getD i []))
      s.traceid.length).Nodup := hperm1.symm.nodup (List.nodup_range _)
  have hstrict2 : ∀ i j, i < (resort_trace_ids argsort s).traceid.length →
      j < (resort_trace_ids argsort s).traceid.length → i < j →
      colMean ((resort_trace_ids argsort s).spat_cen.getD i [])
        < colMean ((resort_trace_ids argsort s).spat_cen.getD j []) := by
    intro i j hi hj hij
    rw [htl] at hi hj
    rw [hfields]
    show colMean ((permute s.spat_cen _ []).getD i []) <
      colMean ((permute s.spat_cen _ []).getD j [])
    unfold permute
    rw [getD_map_of_lt _ _ i hi _ 0, getD_map_of_lt _ _ j hj _ 0]
    have ha : (argsort (fun i => colMean (s.spat_cen.getD i []))
        s.traceid.length).getD i 0 < s.traceid.length := by
      have hx := getD_mem_of_lt _ i hi (0 : ℕ)
      have := hperm1.mem_iff.mp hx
      simpa using this
    have hb : (argsort (fun i => colMean (s.spat_cen.getD i []))
        s.traceid.length).getD j 0 < s.traceid.length := by
      have hx := getD_mem_of_lt _ j hj (0 : ℕ)
      have := hperm1.mem_iff.mp hx
      simpa using this
    have hle : colMean (s.spat_cen.getD ((argsort (fun i =>
        colMean (s.spat_cen.getD i [])) s.traceid.length).getD i 0) [])
        ≤ colMean (s.spat_cen.getD ((argsort (fun i =>
        colMean (s.spat_cen.getD i [])) s.traceid.length).getD j 0) []) := by
      have := (List.pairwise_iff_get.mp hsorted1) ⟨i, hi⟩ ⟨j, hj⟩ hij
      rw [getD_eq_get _ i hi 0, getD_eq_get _ j hj 0]
      exact this
    have hne : (argsort (fun i => colMean (s.spat_cen.getD i []))
        s.traceid.length).getD i 0 ≠ (argsort (fun i =>
        colMean (s.spat_cen.getD i [])) s.traceid.length).getD j 0 := by
      rw [getD_eq_get _ i hi 0, getD_eq_get _ j hj 0]
      intro heq
      have h2 := (List.Nodup.get_inj_iff hnd1).mp heq
      have h3 : i = j := by simpa using h2
      omega
    exact lt_of_le_of_ne hle (hdist _ ha _ hb hne)
  apply resort_eq_of_sorted argsort _ (sorted_perm_of_strict_eq_range _ _ _
    (hsort _ _).1 (hsort _ _).2 hstrict2)
  · rw [hfields]
    dsimp only
    unfold permute
    rw [List.length_map, renumberAux_length, List.length_map]
  · rw [hfields]
    dsimp only
    unfold permute
    rw [List.length_map, renumberAux_length, List.length_map]
  · rw [hfields]
    dsimp only
    unfold permute
    rw [List.length_map, renumberAux_length, List.length_map]
  · rw [hfields]
    dsimp only
    unfold permute
    rw [List.length_map, renumberAux_length, List.length_map]
  · rw [hfields]
    dsimp only
    intro f hf
    rcases hof : s.spat_fit with _ | f0
    · rw [hof] at hf
      exact Option.noConfusion hf
    · rw [hof] at hf
      simp only [Option.map_some'] at hf
      rw [← Option.some.inj hf]
      unfold permute
      rw [List.length_map, renumberAux_length, List.length_map]
  · rw [hfields]
    dsimp only
    exact renumberAux_idem 0 0 0 0 _

/-- A tie ordering `np.argsort` is allowed to produce: sort stably, then
swap the first two output positions when their keys are tied.  It meets
the argsort contract (`isArgsort`); numpy's default `kind='quicksort'`
likewise reorders tied keys (its introsort is unstable, e.g. argsort of a
constant array longer than 16 entries is not the identity). -/
def argsortSwapTies (key : ℕ → ℚ) (n : ℕ) : List ℕ :=
  match List.insertionSort (fun i j => key i ≤ key j) (List.range n) with
  | a :: b :: t => if key a = key b then b :: a :: t else a :: b :: t
  | l => l

/-- `argsortSwapTies` satisfies the `np.argsort` contract: it returns a
permutation of the index range along which the keys are nondecreasing. -/
theorem argsortSwapTies_isArgsort : isArgsort argsortSwapTies := by
  intro key n
  haveI instTot : IsTotal ℕ (fun i j => key i ≤ key j) := ⟨fun a b => le_total _ _⟩
  haveI instTrs : IsTrans ℕ (fun i j => key i ≤ key j) :=
    ⟨fun _ _ _ hab hbc => le_trans hab hbc⟩
  have hperm0 : (List.insertionSort (fun i j => key i ≤ key j) (List.range n)).Perm
      (List.range n) := List.perm_insertionSort _ _
  have hsorted0 : List.Sorted (fun i j => key i ≤ key j)
      (List.insertionSort (fun i j => key i ≤ key j) (List.range n)) :=
    List.sorted_insertionSort _ _
  rcases hshape : List.insertionSort (fun i j => key i ≤ key j) (List.range n) with
    _ | ⟨a, _ | ⟨b, t⟩⟩ <;>
    rw [hshape] at hperm0 hsorted0 <;>
    simp only [argsortSwapTies, hshape]
  · exact ⟨hperm0, hsorted0⟩
  · exact ⟨hperm0, hsorted0⟩
  · by_cases hk : key a = key b
    · rw [if_pos hk]
      rw [List.sorted_cons] at hsorted0
      obtain ⟨hahead, hsorted1⟩ := hsorted0
      rw [List.sorted_cons] at hsorted1
      obtain ⟨hbhead, hsorted2⟩ := hsorted1
      refine ⟨(List.Perm.swap a b t).trans hperm0, ?_⟩
      rw [List.sorted_cons]
      constructor
      · intro x hx
        rcases List.mem_cons.mp hx with rfl | hxt
        · exact le_of_eq hk.symm
        · exact le_trans (le_of_eq hk.symm) (hahead x (List.mem_cons_of_mem _ hxt))
      · rw [List.sorted_cons]
        exact ⟨fun x hx => hahead x (List.mem_cons_of_mem _ hx), hsorted2⟩
    · rw [if_neg hk]
      exact ⟨hperm0, hsorted0⟩

unseal Rat.add Rat.mul Rat.sub Rat.inv in
/-- C8 counterexample to the unconditional idempotence half: a two-trace
set whose per-trace mean positions are tied (both 1) but whose columns
differ.  `argsortSwapTies` meets everything `numpy` promises of
`np.argsort`, yet under it the second `resort_trace_ids` swaps the tied
columns back, so the result differs from one application: idempotence on
every valid state is not implied by the source plus the `np.argsort`
contract (numpy's default quicksort likewise reorders tied keys). -/
theorem resort_trace_ids_tied_means_not_idempotent :
    isArgsort argsortSwapTies ∧
    colMean ([[(0 : ℚ), 2], [1, 1]].getD 0 []) = colMean ([[(0 : ℚ), 2], [1, 1]].getD 1 []) ∧
    resort_trace_ids argsortSwapTies (resort_trace_ids argsortSwapTies
        ⟨2, [-1, 1], [[0, 0], [1, 1]], [[0, 2], [1, 1]], [[1, 1], [1, 1]],
          [[0, 0], [0, 0]], none⟩)
      ≠ resort_trace_ids argsortSwapTies
        ⟨2, [-1, 1], [[0, 0], [1, 1]], [[0, 2], [1, 1]], [[1, 1], [1, 1]],
          [[0, 0], [0, 0]], none⟩ :=
  ⟨argsortSwapTies_isArgsort, by decide, by decide⟩

/-- C8 (amended): `remove_traces` with an all-`False` selection returns an
identical trace set (every array keeps all its columns); and for every
implementation meeting the `np.argsort` contract, `resort_trace_ids` is
idempotent on every state whose per-trace mean positions are pairwise
distinct.  (With tied means the reordering performed by the second call
depends on `np.argsort`'s unspecified tie ordering — numpy's default
quicksort is not stable — and a second call need not be a no-op; see the
counterexample above.) -/
theorem remove_traces_none_and_resort_idem
    (argsort : (ℕ → ℚ) → ℕ → List ℕ) (hsort : isArgsort argsort)
    (s : EdgeTraceSet) (indx : List Bool)
    (hfalse : ∀ b ∈ indx, b = false)
    (hlen : indx.length = s.traceid.length)
    (himg : s.spat_img.length = s.traceid.length)
    (hcen : s.spat_cen.length = s.traceid.length)
    (herr : s.spat_err.length = s.traceid.length)
    (hmsk : s.spat_msk.length = s.traceid.length)
    (hfit : ∀ f, s.spat_fit = some f → f.length = s.traceid.length)
    (hdist : ∀ i < s.traceid.length, ∀ j < s.traceid.length, i ≠ j →
      colMean (s.spat_cen.getD i []) ≠ colMean (s.spat_cen.getD j [])) :
    remove_traces argsort s indx false = s ∧
      resort_trace_ids argsort (resort_trace_ids argsort s)
        = resort_trace_ids argsort s := by
  refine ⟨?_, resort_trace_ids_idem_of_distinct argsort hsort s hdist⟩
  have hkeep : ∀ b ∈ indx.map (fun b => !b), b = true := by
    intro b hb
    simp only [List.mem_map] at hb
    obtain ⟨a, ha, rfl⟩ := hb
    rw [hfalse a ha]
    rfl
  obtain ⟨ns, tid, img, cen, err, msk, fit⟩ := s
  unfold remove_traces
  dsimp only
  rw [if_neg (by simp)]
  have hkl : (indx.map (fun b => !b)).length = tid.length := by
    rw [List.length_map]
    exact hlen
  congr 1
  · exact selectCols_all_true _ _ hkeep (by rw [hkl])
  · exact selectCols_all_true _ _ hkeep (by rw [hkl]; exact himg.symm)
  · exact selectCols_all_true _ _ hkeep (by rw [hkl]; exact hcen.symm)
  · exact selectCols_all_true _ _ hkeep (by rw [hkl]; exact herr.symm)
  · exact selectCols_all_true _ _ hkeep (by rw [hkl]; exact hmsk.symm)
  · rcases fit with _ | f
    · rfl
    · simp only [Option.map_some']
      rw [selectCols_all_true _ _ hkeep (by rw [hkl]; exact (hfit f rfl).symm)]

unseal Rat.add Rat.mul Rat.sub Rat.inv in
/-- Witness for C8 on a concrete two-trace set with distinct mean
positions (0 and 3), instantiating the argsort parameter with the
contract-satisfying `argsortSwapTies`. -/
theorem remove_traces_none_and_resort_idem_witness :
    remove_traces argsortSwapTies ⟨2, [-1, 1], [[0, 0], [3, 3]], [[0, 0], [3, 3]],
        [[1, 1], [1, 1]], [[0, 0], [0, 0]], none⟩ [false, false] false
      = ⟨2, [-1, 1], [[0, 0], [3, 3]], [[0, 0], [3, 3]], [[1, 1], [1, 1]],
        [[0, 0], [0, 0]], none⟩ ∧
      resort_trace_ids argsortSwapTies (resort_trace_ids argsortSwapTies
          ⟨2, [-1, 1], [[0, 0], [3, 3]], [[0, 0], [3, 3]],
            [[1, 1], [1, 1]], [[0, 0], [0, 0]], none⟩)
        = resort_trace_ids argsortSwapTies ⟨2, [-1, 1], [[0, 0], [3, 3]],
          [[0, 0], [3, 3]], [[1, 1], [1, 1]], [[0, 0], [0, 0]], none⟩ :=
  remove_traces_none_and_resort_idem argsortSwapTies argsortSwapTies_isArgsort _ _
    (by decide) (by decide) (by decide) (by decide)
    (by decide) (by decide) (fun f hf => Option.noConfusion hf) (by decide)

/-- Witness for C10: a two-element width array matching the shape of a
two-coordinate `xcen` triggers the `ValueError`. -/
theorem recenter_moment_rejects_matching_width_array_witness :
    recenter_moment 1 3 (fun _ _ => 1) none none [1, 2] (.scalar 0) .uniform [3, 4] (-1) id id
      = .error "ValueError: Radius must a be either an integer, a floating point number, or an ndarray with the same shape and size as xcen." :=
  (recenter_moment_rejects_matching_width_array 1 3 (fun _ _ => 1) none none [1, 2]
    (.scalar 0) .uniform [3, 4] (-1) id id).mpr (by decide)
